import Mathlib

/-!
Shallow embedding of the entity-resolution engine from
`backend/graph/entity_resolution.py` (class `EntityResolutionService`) and the
pieces of `backend/graph/entity_extractor.py` it uses (`ExtractedEntity`,
`EntityDisambiguator`, `create_default_disambiguator`).

Conventions of the embedding:
- Python `str` is Lean `String`; `lower()` is ASCII lowering (the corpus is
  ASCII), `strip()` is `String.trim`, whitespace is `Char.isWhitespace`.
- Python `float` scores are modelled as exact rationals `ℚ`; `difflib`'s
  `SequenceMatcher.ratio()` already is an exact rational `2*M/T`.
- Python `dict` (insertion ordered) is an association list `List (k × v)`
  updated in place on existing keys and appended otherwise; Python `set` is a
  duplicate-free list (its unspecified iteration order only ever feeds
  order-insensitive consumers here, see the comments at the use sites).
- The mutable `_learned_acronyms` cache on the engine instance is threaded
  explicitly: every operation that may mutate it returns the updated engine.
-/

namespace ER

/-- Python dict assignment `d[k] = v`: overwrite in place, else append. -/
def alistSet {α β : Type} [DecidableEq α] : List (α × β) → α → β → List (α × β)
  | [], k, v => [(k, v)]
  | (k', v') :: rest, k, v =>
      if k' = k then (k', v) :: rest else (k', v') :: alistSet rest k v

/-- Python dict lookup `d.get(k)`. -/
def alistGet {α β : Type} [DecidableEq α] : List (α × β) → α → Option β
  | [], _ => none
  | (k', v') :: rest, k => if k' = k then some v' else alistGet rest k

/-- Python `d.setdefault(k, []).append(x)`, preserving first-seen key order as
Python dicts do. -/
def pyGroupAdd {α κ : Type} [DecidableEq κ] :
    List (κ × List α) → κ → α → List (κ × List α)
  | [], k, x => [(k, [x])]
  | (k', g) :: rest, k, x =>
      if k' = k then (k', g ++ [x]) :: rest else (k', g) :: pyGroupAdd rest k x

/-- Grouping a list by a key, as the Python `setdefault`/`append` loops in
`_generate_candidate_pairs` and `_resolve_with_alias_map` do. -/
def pyGroupBy {α κ : Type} [DecidableEq κ] (f : α → κ) (xs : List α) :
    List (κ × List α) :=
  xs.foldl (fun g x => pyGroupAdd g (f x) x) []

/-- Python set insertion `s.add(x)` on a duplicate-free list. -/
def pySetAdd {α : Type} [DecidableEq α] (s : List α) (x : α) : List α :=
  if x ∈ s then s else s ++ [x]

/-- Lexicographic string comparison by code point (`a <= b` on Python `str`),
on character lists. -/
def strLeCore : List Char → List Char → Bool
  | [], _ => true
  | _ :: _, [] => false
  | a :: as, b :: bs =>
      if a.toNat < b.toNat then true
      else if b.toNat < a.toNat then false
      else strLeCore as bs

/-- Strict lexicographic string comparison by code point (Python `a < b`). -/
def strLtCore : List Char → List Char → Bool
  | [], [] => false
  | [], _ :: _ => true
  | _ :: _, [] => false
  | a :: as, b :: bs =>
      if a.toNat < b.toNat then true
      else if b.toNat < a.toNat then false
      else strLtCore as bs

/-- Python `s.strip()`. -/
def strTrim (s : String) : String :=
  String.mk
    (((s.data.dropWhile Char.isWhitespace).reverse.dropWhile
      Char.isWhitespace).reverse)

/-- Python `" ".join(parts)`. -/
def joinSpace : List String → String
  | [] => ""
  | [x] => x
  | x :: xs => x ++ " " ++ joinSpace xs

/-- Stable insertion of `x` into a sorted list: `x` goes before the first
element `y` with `le x y`. -/
def pySortInsert {γ : Type} (le : γ → γ → Bool) (x : γ) : List γ → List γ
  | [] => [x]
  | y :: ys => if le x y then x :: y :: ys else y :: pySortInsert le x ys

/-- Stable sort with respect to a total preorder `le`; for a total preorder
the output of a stable sort is unique, so this coincides with Python's
`sorted`/`list.sort` on every comparison used by the engine. -/
def pySorted {γ : Type} (le : γ → γ → Bool) : List γ → List γ
  | [] => []
  | x :: xs => pySortInsert le x (pySorted le xs)

/-- Kernel-computable product of rationals (equal to `a * b`, see
`qMul_eq`). -/
def qMul (a b : ℚ) : ℚ := mkRat (a.num * b.num) (a.den * b.den)

/-- Kernel-computable sum of rationals (equal to `a + b`, see `qAdd_eq`). -/
def qAdd (a b : ℚ) : ℚ :=
  mkRat (a.num * b.den + b.num * a.den) (a.den * b.den)

/-- ASCII `str.lower()`. -/
def pyLower (s : String) : String := String.mk (s.data.map Char.toLower)

/-- Python truthiness of a string (`if not name: ...`). -/
def pyFalsy (s : String) : Bool := s = ""

/-- Whitespace splitter: `re.split(r"\s+", value.strip())` dropping empty
pieces, i.e. the maximal non-whitespace runs of the string. -/
def wsTokens (s : String) : List String :=
  ((s.data.splitOnP Char.isWhitespace).filter (· ≠ [])).map String.mk

/-- Structural substring test on character lists. -/
def listIsInfix (needle : List Char) : List Char → Bool
  | [] => needle.isEmpty
  | c :: rest => needle.isPrefixOf (c :: rest) || listIsInfix needle rest

/-- Substring test, Python `kw in text`. -/
def strContains (text kw : String) : Bool :=
  listIsInfix kw.data text.data

/-! ### `_normalize_surface` -/

/-- Character rewriting step of `_normalize_surface`: `_`, `-`, `/`, `(`, `)`
become spaces and `.` is removed. -/
def normalizeSurfaceChar (c : Char) : List Char :=
  if c = '_' ∨ c = '-' ∨ c = '/' ∨ c = '(' ∨ c = ')' then [' ']
  else if c = '.' then []
  else [c]

/-- `EntityResolutionService._normalize_surface`: strip, lowercase, rewrite
separator characters, collapse whitespace runs, strip again, then apply the
fixed spelling-alias table. -/
def normalizeSurface (value : String) : String :=
  let lowered := (pyLower (strTrim value)).data
  let rewritten := lowered.flatMap normalizeSurfaceChar
  let collapsed := joinSpace
    (((rewritten.splitOnP Char.isWhitespace).filter (· ≠ [])).map String.mk)
  if collapsed = "finetuning" then "fine tuning" else collapsed

/-- `EntityResolutionService._normalize_acronym_key`: lowercase and keep only
ASCII `[a-z0-9]`. -/
def normalizeAcronymKey (value : String) : String :=
  String.mk ((pyLower value).data.filter
    (fun c => ('a' ≤ c ∧ c ≤ 'z') ∨ ('0' ≤ c ∧ c ≤ '9')))

/-! ### `_is_valid_acronym` and `_learn_acronym_mapping` -/

/-- `EntityResolutionService._is_valid_acronym`. -/
def isValidAcronym (longForm acronym : String) : Bool :=
  let tokens := wsTokens longForm
  let initials := String.mk (tokens.filterMap (fun t =>
    match t.data with
    | [] => none
    | c :: _ => if c.isAlphanum then some c else none))
  let acronymKey := normalizeAcronymKey acronym
  if normalizeAcronymKey initials = acronymKey then true
  else if tokens.length = 1 then
    let wordKey := normalizeAcronymKey (tokens.headD "")
    decide (2 ≤ acronymKey.length) && acronymKey.data.isPrefixOf wordKey.data
  else false

/-- Character class `[A-Za-z0-9.\-]` of the acronym tail in the
`_learn_acronym_mapping` regex. -/
def acrTailChar (c : Char) : Bool :=
  c.isAlphanum ∨ c = '.' ∨ c = '-'

/-- Structural match of the regex
`^\s*(?P<long>[^()]+?)\s*\((?P<acr>[A-Za-z][A-Za-z0-9\.\-]{1,15})\)\s*$`:
the text before the first `(` (trimmed, as the lazy group captures it) is the
long form, the parenthesised chunk is the acronym, and only whitespace may
follow the closing `)`.  A whitespace-only long form is returned as `""`; the
caller rejects it exactly as the surrounding Python rejects a failed match,
because `_normalize_surface` of the captured group is empty in both cases. -/
def parseLongAcr (raw : String) : Option (String × String) :=
  let cs := raw.data
  let pre := cs.takeWhile (· ≠ '(')
  let rest := cs.dropWhile (· ≠ '(')
  match rest with
  | [] => none
  | _ :: afterOpen =>
      let acr := afterOpen.takeWhile (· ≠ ')')
      let rest2 := afterOpen.dropWhile (· ≠ ')')
      match rest2 with
      | [] => none
      | _ :: tail =>
          if ¬ tail.all Char.isWhitespace then none
          else if ')' ∈ pre then none
          else match acr with
          | [] => none
          | c :: cs' =>
              if c.isAlpha ∧ 1 ≤ cs'.length ∧ cs'.length ≤ 15 ∧
                  cs'.all acrTailChar then
                some (strTrim (String.mk pre), String.mk acr)
              else none

/-- The learned-acronym cache `_learned_acronyms` of one engine instance. -/
abbrev LearnedMap := List (String × String)

/-- `EntityResolutionService._learn_acronym_mapping`: recognise
`Long Form (ACR)` names, record `acronym → long_form` under both the
normalized acronym and its alphanumeric key, and return the long form. -/
def learnAcronymMapping (m : LearnedMap) (rawName : String) :
    Option String × LearnedMap :=
  match parseLongAcr rawName with
  | none => (none, m)
  | some (longRaw, acrRaw) =>
      let longForm := normalizeSurface longRaw
      let acronym := normalizeSurface acrRaw
      if pyFalsy longForm ∨ pyFalsy acronym then (none, m)
      else if isValidAcronym longForm acronym then
        let m₁ := alistSet m acronym longForm
        let m₂ := alistSet m₁ (normalizeAcronymKey acronym) longForm
        (some longForm, m₂)
      else (none, m)

/-! ### The default synonym table (`create_default_disambiguator`) -/

/-- The `_canonical_map` of `create_default_disambiguator()`: every synonym of
`DEFAULT_SYNONYMS`, lowercased, mapped to its lowercased canonical form, in
insertion order. -/
def defaultCanonicalMap : List (String × String) :=
  [ ("ai", "artificial intelligence"), ("a.i.", "artificial intelligence"),
    ("ml", "machine learning"), ("m.l.", "machine learning"),
    ("nlp", "natural language processing"),
    ("n.l.p.", "natural language processing"),
    ("llm", "large language model"), ("l.l.m.", "large language model"),
    ("large language models", "large language model"),
    ("rct", "randomized controlled trial"),
    ("r.c.t.", "randomized controlled trial"),
    ("chat bot", "chatbot"), ("conversational agent", "chatbot"),
    ("dialogue system", "chatbot"),
    ("dl", "deep learning"), ("d.l.", "deep learning"),
    ("nn", "neural network"), ("neural net", "neural network"),
    ("neural networks", "neural network") ]

/-- `EntityDisambiguator.get_canonical_name` on the default disambiguator:
lowercase and strip, then consult the manual synonym map. -/
def getCanonicalName (name : String) : String :=
  let nameLower := strTrim (pyLower name)
  (alistGet defaultCanonicalMap nameLower).getD nameLower

/-! ### Data model -/

/-! Recursive value type of the dynamic `properties` payload (`str`, `int`,
`bool`, `None`, `list`, `dict`; `float` leaves are outside the embedding).
The list and dict payloads are dedicated mutual inductives so the recursive
traversals below are structural (and hence kernel-computable). -/
mutual

inductive PropVal : Type where
  | vnone : PropVal
  | vstr : String → PropVal
  | vint : Int → PropVal
  | vbool : Bool → PropVal
  | vlist : PropValList → PropVal
  | vdict : PropKVList → PropVal

inductive PropValList : Type where
  | nil : PropValList
  | cons : PropVal → PropValList → PropValList

inductive PropKVList : Type where
  | nil : PropKVList
  | cons : String → PropVal → PropKVList → PropKVList

end

/-- Plain-list view of a `PropValList`. -/
def PropValList.toList : PropValList → List PropVal
  | .nil => []
  | .cons v rest => v :: rest.toList

/-- `PropValList` from a plain list. -/
def PropValList.ofList : List PropVal → PropValList
  | [] => .nil
  | v :: rest => .cons v (PropValList.ofList rest)

/-- Python `str()` rendering as used on `source_paper_ids` elements (which are
always strings or simple scalars in this pipeline). -/
def PropVal.pyStr : PropVal → String
  | .vnone => "None"
  | .vstr s => s
  | .vint n => toString n
  | .vbool b => if b then "True" else "False"
  | .vlist _ => "[...]"
  | .vdict _ => "{...}"

/-- Python truthiness `if source_id:` for a property value. -/
def PropVal.pyTruthy : PropVal → Bool
  | .vnone => false
  | .vstr s => s ≠ ""
  | .vint n => n ≠ 0
  | .vbool b => b
  | .vlist .nil => false
  | .vlist (.cons _ _) => true
  | .vdict .nil => false
  | .vdict (.cons _ _ _) => true

/-- `ExtractedEntity` from `entity_extractor.py`; `entity_type` is kept as the
string the engine converts it to (`entity_type.value` / `str(entity_type)`). -/
structure ExtractedEntity where
  entityType : String
  name : String
  definition : String := ""
  description : String := ""
  confidence : ℚ := 0
  sourcePaperId : Option String := none
  properties : List (String × PropVal) := []

instance : Inhabited ExtractedEntity := ⟨⟨"", "", "", "", 0, none, []⟩⟩

/-- `ExtractedEntity.__post_init__`: the dataclass normalizes `name` to
lowercase stripped form on construction. -/
def postInitName (name : String) : String :=
  if pyFalsy name then "" else pyLower (strTrim name)

/-- The `(entity_type, context_bucket, canonical_name)` aggregation key. -/
abbrev NameKey := String × String × String

/-- `_build_name_stats` entry: per-key support count and max confidence. -/
structure NameStat where
  count : Nat := 0
  maxConf : ℚ := 0
deriving DecidableEq

/-! ### Homonym context rules and bucketing -/

/-- The `_homonym_context_rules` table built in `__init__` (it is a constant
per instance). -/
def homonymContextRules : List (String × List (String × List String)) :=
  [ ("sat",
      [ ("logic",
          ["boolean", "satisfiability", "cnf", "solver", "constraint",
           "propositional", "clause"]),
        ("education",
          ["scholastic", "aptitude", "student", "exam", "test score",
           "college", "assessment"]),
        ("attention",
          ["self attention", "attention mechanism", "transformer", "token",
           "sequence model"]) ]),
    ("transformer",
      [ ("deep_learning",
          ["neural", "language model", "self attention", "token", "encoder",
           "decoder", "vision transformer", "embedding"]),
        ("electrical",
          ["voltage", "current", "power grid", "electrical", "winding",
           "coil"]) ]) ]

/-! The function `EntityResolutionService._iter_property_strings` (with its
list and dict companions, mutually structural). -/
mutual

def iterPropertyStrings : PropVal → List String
  | .vnone => []
  | .vstr s => [s]
  | .vint n => [toString n]
  | .vbool b => [if b then "True" else "False"]
  | .vlist xs => iterPropList xs
  | .vdict kvs => iterPropKV kvs

def iterPropList : PropValList → List String
  | .nil => []
  | .cons v rest => iterPropertyStrings v ++ iterPropList rest

def iterPropKV : PropKVList → List String
  | .nil => []
  | .cons _ v rest => iterPropertyStrings v ++ iterPropKV rest

end

/-- `EntityResolutionService._build_context_text`: name, definition,
description and every string leaf of the properties, joined and lowercased. -/
def buildContextText (e : ExtractedEntity) : String :=
  let chunks := [e.name, e.definition, e.description] ++
    e.properties.flatMap (fun kv => iterPropertyStrings kv.2)
  pyLower (joinSpace chunks)

/-! The claim-side context of C5, following the claim's words rather than the
code: the concatenated context is built from the entity's name, definition,
description and "all string leaves of its nested properties" — so, unlike
`_iter_property_strings`, numeric and boolean leaves contribute nothing. -/

mutual

def claimIterPropertyStrings : PropVal → List String
  | .vnone => []
  | .vstr s => [s]
  | .vint _ => []
  | .vbool _ => []
  | .vlist xs => claimIterPropList xs
  | .vdict kvs => claimIterPropKV kvs

def claimIterPropList : PropValList → List String
  | .nil => []
  | .cons v rest => claimIterPropertyStrings v ++ claimIterPropList rest

def claimIterPropKV : PropKVList → List String
  | .nil => []
  | .cons _ v rest => claimIterPropertyStrings v ++ claimIterPropKV rest

end

/-- The claim's context text: name, definition, description and the string
leaves only, joined and lowercased. -/
def claimContextText (e : ExtractedEntity) : String :=
  pyLower (joinSpace ([e.name, e.definition, e.description] ++
    e.properties.flatMap (fun kv => claimIterPropertyStrings kv.2)))

/-- Number of rule keywords occurring as substrings of the context text, i.e.
`sum(1 for kw in keywords if kw in text)`. -/
def keywordScore (keywords : List String) (text : String) : Nat :=
  (keywords.filter (fun kw => strContains text kw)).length

/-- The best-bucket fold of `_infer_context_bucket`, starting from
`("generic", 0)` and replacing the best bucket on a strictly higher score. -/
def bestBucketFold (text : String) (rules : List (String × List String)) :
    String × Nat :=
  rules.foldl
    (fun best rule =>
      let score := keywordScore rule.2 text
      if best.2 < score then (rule.1, score) else best)
    ("generic", 0)

/-- `EntityResolutionService._infer_context_bucket`: `none` for canonical
names without a homonym rule, otherwise the highest-scoring bucket with
`"generic"` on a zero-score tie. -/
def inferContextBucket (canonicalName : String) (e : ExtractedEntity) :
    Option String :=
  match alistGet homonymContextRules canonicalName with
  | none => none
  | some rules =>
      let text := buildContextText e
      some (bestBucketFold text rules).1

/-- The claim-side bucket procedure of C5: identical to
`inferContextBucket` except that keywords are counted against the claim's
string-leaves-only context. -/
def claimInferContextBucket (canonicalName : String)
    (e : ExtractedEntity) : Option String :=
  match alistGet homonymContextRules canonicalName with
  | none => none
  | some rules =>
      let text := claimContextText e
      some (bestBucketFold text rules).1

/-! ### Engine state and the canonicalizer -/

/-- One parsed judge decision (an element of the `decisions` JSON array):
either not a JSON object (skipped by the code) or an `{"id": ..., "same": ...}`
object after `str()`/`bool()` coercion. -/
inductive JudgeDecision : Type where
  | invalid : JudgeDecision
  | dec : String → Bool → JudgeDecision

/-- The judge capability: for every batch (indexed in send order) either the
parsed `decisions` payload of the response (an exception-free call followed by
`_extract_json_block` and `payload.get("decisions", [])`) or an error raised
by the call.  A response that fails to parse is `.ok []`. -/
abbrev Judge := Nat → Except Unit (List JudgeDecision)

/-- `EntityResolutionService` instance state: the optional judge, the mutable
learned-acronym cache, and the constructor thresholds (with their default
values).  The synonym map and the homonym rules are constants shared by all
instances, see `defaultCanonicalMap` and `homonymContextRules`. -/
structure Engine where
  llm : Option Judge := none
  learnedAcronyms : LearnedMap := []
  autoMergeThreshold : ℚ := mkRat 95 100
  llmReviewThreshold : ℚ := mkRat 82 100
  maxLlmPairChecks : Nat := 40
  llmBatchSize : Nat := 20

/-- `EntityResolutionService.canonicalize_name`, threading the learned-acronym
cache it may extend. -/
def canonicalizeName (eng : Engine) (name : String) : String × Engine :=
  if pyFalsy name then ("", eng)
  else
    let (learnedLongForm, m) := learnAcronymMapping eng.learnedAcronyms name
    let eng₁ := { eng with learnedAcronyms := m }
    let normalized := normalizeSurface (learnedLongForm.getD name)
    if pyFalsy normalized then ("", eng₁)
    else
      let normalized₁ :=
        match alistGet m normalized with
        | some v => v
        | none =>
            match alistGet m (normalizeAcronymKey normalized) with
            | some v => v
            | none => normalized
      let canonical := normalizeSurface (getCanonicalName normalized₁)
      match alistGet m canonical with
      | some v => (v, eng₁)
      | none =>
          ((alistGet m (normalizeAcronymKey canonical)).getD canonical, eng₁)

/-- One record of `_build_records`. -/
structure Record where
  entity : ExtractedEntity
  entityType : String
  canonicalName : String
  contextBucket : String

/-- The `(entity_type, context_bucket, canonical_name)` key of a record. -/
def Record.key (r : Record) : NameKey :=
  (r.entityType, r.contextBucket, r.canonicalName)

/-- The bucket a record is built with:
`self._infer_context_bucket(canonical_name, entity) or "__default__"` (the
Python `or` also replaces an empty bucket string, which the bucketer never
returns). -/
def recordBucket (canonicalName : String) (entity : ExtractedEntity) :
    String :=
  match inferContextBucket canonicalName entity with
  | none => "__default__"
  | some b => if pyFalsy b then "__default__" else b

/-- `EntityResolutionService._build_records`, processing entities in input
order (which fixes the acronym-learning order) and dropping entities whose
canonical name is empty. -/
def buildRecords (eng : Engine) (entities : List ExtractedEntity) :
    List Record × Engine :=
  entities.foldl
    (fun (acc : List Record × Engine) entity =>
      let (records, e) := acc
      let (canonicalName, e₁) := canonicalizeName e entity.name
      if pyFalsy canonicalName then (records, e₁)
      else
        let contextBucket := recordBucket canonicalName entity
        (records ++
          [{ entity := entity, entityType := entity.entityType,
             canonicalName := canonicalName, contextBucket := contextBucket }],
         e₁))
    ([], eng)

/-- `EntityResolutionService._build_name_stats`: per-key support count and
maximum confidence, keys in first-seen order. -/
def buildNameStats (records : List Record) : List (NameKey × NameStat) :=
  records.foldl
    (fun stats record =>
      let key := record.key
      let cur := (alistGet stats key).getD {}
      alistSet stats key
        { count := cur.count + 1,
          maxConf := max cur.maxConf record.entity.confidence })
    []

/-! ### `difflib.SequenceMatcher` (CPython, `isjunk=None`, `autojunk=True`)

The engine scores candidate names with `SequenceMatcher(None, left,
right).ratio()`.  With `isjunk=None` the junk set `bjunk` is empty, so the two
junk-extension loops of `find_longest_match` never fire and are omitted; the
`autojunk` purge of popular elements (only active for `len(b) >= 200`) is
modelled in `b2jBuild`. -/

/-- `b2j` of `SequenceMatcher.__chain_b`: each element of `b` mapped to its
ascending index list, with popular elements purged when `len(b) >= 200`. -/
def b2jBuild (b : List Char) : List (Char × List Nat) :=
  let base := (b.enum.foldl
    (fun (m : List (Char × List Nat)) ic =>
      alistSet m ic.2 ((alistGet m ic.2).getD [] ++ [ic.1]))
    [])
  if 200 ≤ b.length then
    let ntest := b.length / 100 + 1
    base.filter (fun kv => kv.2.length ≤ ntest)
  else base

/-- State of the `find_longest_match` scan: previous-row run lengths `j2len`,
the row `newj2len` being built, and the best `(besti, bestj, bestsize)`. -/
structure FlmState where
  j2len : List (Nat × Nat)
  newj2len : List (Nat × Nat)
  besti : Nat
  bestj : Nat
  bestsize : Nat

/-- Inner loop of `find_longest_match` over the `b`-indices of `a[i]`
(ascending, restricted to `[blo, bhi)` — the Python `continue`/`break` on an
ascending index list equals this filter).  Run lengths are read from the
previous row `j2len` and written to `newj2len`, exactly as
`k = newj2len[j] = j2len.get(j-1, 0) + 1` does. -/
def flmInner (blo bhi i : Nat) (js : List Nat) (st : FlmState) : FlmState :=
  (js.filter (fun j => blo ≤ j ∧ j < bhi)).foldl
    (fun st j =>
      let k := (if j = 0 then 0 else (alistGet st.j2len (j - 1)).getD 0) + 1
      let st₁ := { st with newj2len := alistSet st.newj2len j k }
      if st.bestsize < k then
        { st₁ with besti := i + 1 - k, bestj := j + 1 - k, bestsize := k }
      else st₁)
    st

/-- The left extension loop
`while besti > alo and bestj > blo and a[besti-1] == b[bestj-1]`
(the `not isbjunk` conjunct holds vacuously).  Recursion on `besti`. -/
def flmExtendLeft (a b : List Char) (alo blo : Nat) :
    Nat → Nat → Nat → Nat × Nat × Nat
  | 0, bestj, bestsize => (0, bestj, bestsize)
  | bi + 1, bestj, bestsize =>
      if alo < bi + 1 ∧ blo < bestj ∧
          a.getD bi ' ' = b.getD (bestj - 1) ' ' then
        flmExtendLeft a b alo blo bi (bestj - 1) (bestsize + 1)
      else (bi + 1, bestj, bestsize)

/-- The right extension loop of `find_longest_match`, with fuel bounding the
remaining room `ahi - (besti + bestsize)`. -/
def flmExtendRight (a b : List Char) (ahi bhi besti bestj : Nat) :
    Nat → Nat → Nat
  | 0, bestsize => bestsize
  | fuel + 1, bestsize =>
      if besti + bestsize < ahi ∧ bestj + bestsize < bhi ∧
          a.getD (besti + bestsize) ' ' = b.getD (bestj + bestsize) ' ' then
        flmExtendRight a b ahi bhi besti bestj fuel (bestsize + 1)
      else bestsize

/-- `SequenceMatcher.find_longest_match` on the window
`a[alo:ahi] × b[blo:bhi]`. -/
def findLongestMatch (a b : List Char) (b2j : List (Char × List Nat))
    (alo ahi blo bhi : Nat) : Nat × Nat × Nat :=
  let st₀ : FlmState :=
    { j2len := [], newj2len := [], besti := alo, bestj := blo, bestsize := 0 }
  let st := (List.range' alo (ahi - alo)).foldl
    (fun st i =>
      let stepped := flmInner blo bhi i
        ((alistGet b2j (a.getD i ' ')).getD [])
        { st with newj2len := [] }
      { stepped with j2len := stepped.newj2len, newj2len := [] })
    st₀
  let (bi, bj, bs) :=
    flmExtendLeft a b alo blo st.besti st.bestj st.bestsize
  let bs₁ := flmExtendRight a b ahi bhi bi bj (ahi - (bi + bs)) bs
  (bi, bj, bs₁)

/-- Total size of all matching blocks (`get_matching_blocks` recursion of
`ratio`); the queue order does not affect the sum, so the two subwindows are
summed directly.  The fuel `ahi - alo` strictly decreases on both sides. -/
def matchingTotal (a b : List Char) (b2j : List (Char × List Nat)) :
    Nat → Nat → Nat → Nat → Nat → Nat
  | 0, _, _, _, _ => 0
  | fuel + 1, alo, ahi, blo, bhi =>
      let (i, j, k) := findLongestMatch a b b2j alo ahi blo bhi
      if k = 0 then 0
      else
        k +
        (if alo < i ∧ blo < j then
          matchingTotal a b b2j fuel alo i blo j else 0) +
        (if i + k < ahi ∧ j + k < bhi then
          matchingTotal a b b2j fuel (i + k) ahi (j + k) bhi else 0)

/-- `SequenceMatcher(None, a, b).ratio()` as an exact rational
`2*M / (len(a)+len(b))`, `1.0` on two empty strings. -/
def smRatio (left right : String) : ℚ :=
  let a := left.data
  let b := right.data
  let total := a.length + b.length
  if total = 0 then 1
  else
    mkRat
      (2 * matchingTotal a b (b2jBuild b) (a.length + 1) 0 a.length 0 b.length)
      total

/-! ### `_similarity_score` and `_generate_candidate_pairs` -/

/-- `EntityResolutionService._tokenize`: the set of whitespace tokens. -/
def tokenize (value : String) : Finset String :=
  (wsTokens value).toFinset

/-- `EntityResolutionService._similarity_score`: hybrid of the character
`SequenceMatcher` ratio and token Jaccard, with an abbreviation bonus. -/
def similarityScore (left right : String) : ℚ :=
  if left = right then 1
  else
    let leftTokens := tokenize left
    let rightTokens := tokenize right
    if leftTokens = ∅ ∨ rightTokens = ∅ then 0
    else
      let jaccard : ℚ :=
        mkRat ((leftTokens ∩ rightTokens).card) ((leftTokens ∪ rightTokens).card)
      let charRatio := smRatio left right
      let score := qAdd (qMul (mkRat 55 100) charRatio)
        (qMul (mkRat 45 100) jaccard)
      let leftKey := normalizeAcronymKey left
      let rightKey := normalizeAcronymKey right
      if ¬ pyFalsy leftKey ∧ ¬ pyFalsy rightKey ∧
          (leftKey.data.isPrefixOf rightKey.data ∨
            rightKey.data.isPrefixOf leftKey.data) then
        min 1 (qAdd score (mkRat 1 10))
      else score

/-- A scored candidate pair `(left_key, right_key, score)`. -/
abbrev CandidatePair := NameKey × NameKey × ℚ

/-- All ordered index pairs `i < j` of a list, in the order the nested loops
of `_generate_candidate_pairs` visit them. -/
def orderedPairs {α : Type} : List α → List (α × α)
  | [] => []
  | x :: xs => xs.map (fun y => (x, y)) ++ orderedPairs xs

/-- Name comparison used by `sorted(bucket_keys, key=lambda x: x[2])`. -/
def byThird (x y : NameKey) : Bool := strLeCore x.2.2.data y.2.2.data

/-- Candidate pairs of one `(entity_type, context_bucket)` block: sort by
canonical name, skip pairs whose name lengths differ by more than 20, score
the rest and keep scores `≥ min_similarity`. -/
def blockCandidates (minSimilarity : ℚ) (bucketKeys : List NameKey) :
    List CandidatePair :=
  if bucketKeys.length < 2 then []
  else
    let ordered := pySorted byThird bucketKeys
    (orderedPairs ordered).filterMap (fun lr =>
      let (left, right) := lr
      if 20 < (left.2.2.length : ℤ) - (right.2.2.length : ℤ) ∨
          20 < (right.2.2.length : ℤ) - (left.2.2.length : ℤ) then none
      else
        let score := similarityScore left.2.2 right.2.2
        if minSimilarity ≤ score then some (left, right, score) else none)

/-- Descending-score comparison of `candidates.sort(key=..., reverse=True)`. -/
def byScoreDesc (x y : CandidatePair) : Bool := decide (y.2.2 ≤ x.2.2)

/-- `EntityResolutionService._generate_candidate_pairs`. -/
def generateCandidatePairs (nameKeys : List NameKey) (minSimilarity : ℚ)
    (maxPairs : Option Nat) : List CandidatePair :=
  if nameKeys.length < 2 then []
  else
    let grouped := pyGroupBy (fun k : NameKey => (k.1, k.2.1)) nameKeys
    let candidates :=
      (grouped.map Prod.snd).flatMap (blockCandidates minSimilarity)
    let sorted := pySorted byScoreDesc candidates
    match maxPairs with
    | some m => sorted.take m
    | none => sorted

/-! ### Union-find clustering, canonical selection, resolution -/

/-- The ranking tuple `(count, max_conf, len(name))` of
`_select_cluster_canonical`. -/
def keyRank (nameStats : List (NameKey × NameStat)) (k : NameKey) :
    Nat × ℚ × Nat :=
  let st := (alistGet nameStats k).getD {}
  (st.count, st.maxConf, k.2.2.length)

/-- Lexicographic order on ranking tuples (Python tuple comparison). -/
def rankLe (x y : Nat × ℚ × Nat) : Bool :=
  decide (x.1 < y.1) ||
    (decide (x.1 = y.1) &&
      (decide (x.2.1 < y.2.1) ||
        (decide (x.2.1 = y.2.1) && decide (x.2.2 ≤ y.2.2))))

/-- `EntityResolutionService._select_cluster_canonical`: stable descending
sort by the ranking tuple (`sorted(..., reverse=True)`), first element's name.
Clusters are never empty; the empty case mirrors Python's index error with a
default. -/
def selectClusterCanonical (clusterKeys : List NameKey)
    (nameStats : List (NameKey × NameStat)) : String :=
  let ranked := pySorted
    (fun a b => rankLe (keyRank nameStats b) (keyRank nameStats a))
    clusterKeys
  (ranked.headD ("", "", "")).2.2

/-- Union-find `find` with path halving, fuelled (the parent map built by
`_build_alias_map` is a forest, so `parent.length + 1` steps always reach the
root).  Mirrors the Python loop including the in-place halving writes. -/
def ufFind (parent : List (NameKey × NameKey)) (node : NameKey) :
    Nat → NameKey × List (NameKey × NameKey)
  | 0 => (node, parent)
  | fuel + 1 =>
      let p := (alistGet parent node).getD node
      if p = node then (node, parent)
      else
        let gp := (alistGet parent p).getD p
        ufFind (alistSet parent node gp) gp fuel

/-- Union-find `union`: merge the roots of `a` and `b`. -/
def ufUnion (parent : List (NameKey × NameKey)) (a b : NameKey) :
    List (NameKey × NameKey) :=
  let fuel := parent.length + 1
  let (ra, parent₁) := ufFind parent a fuel
  let (rb, parent₂) := ufFind parent₁ b fuel
  if ra = rb then parent₂ else alistSet parent₂ rb ra

/-- `EntityResolutionService._build_alias_map`: auto-accept candidate pairs at
the auto-merge threshold, add the judge-confirmed pairs, union-find over the
accepted pairs, and map every key of a cluster to the cluster's canonical
name.  (Python iterates `accepted_pairs` as a set in unspecified order; the
resulting partition, hence the alias map, does not depend on that order.) -/
def buildAliasMap (eng : Engine) (nameKeys : List NameKey)
    (nameStats : List (NameKey × NameStat))
    (confirmedPairs : List (NameKey × NameKey)) : List (NameKey × String) :=
  if nameKeys.isEmpty then []
  else
    let autoPairs :=
      generateCandidatePairs nameKeys eng.autoMergeThreshold none
    let accepted := confirmedPairs.foldl pySetAdd
      (autoPairs.foldl (fun s p => pySetAdd s (p.1, p.2.1)) [])
    let parent₀ := nameKeys.map (fun k => (k, k))
    let parent := accepted.foldl
      (fun par lr =>
        if (alistGet par lr.1).isSome ∧ (alistGet par lr.2).isSome then
          ufUnion par lr.1 lr.2
        else par)
      parent₀
    let (clusters, _) := nameKeys.foldl
      (fun (acc : List (NameKey × List NameKey) ×
          List (NameKey × NameKey)) key =>
        let (root, par₁) := ufFind acc.2 key (acc.2.length + 1)
        (pyGroupAdd acc.1 root key, par₁))
      ([], parent)
    (clusters.map Prod.snd).foldl
      (fun aliasMap clusterKeys =>
        let canonicalName := selectClusterCanonical clusterKeys nameStats
        clusterKeys.foldl (fun am key => alistSet am key canonicalName)
          aliasMap)
      []

/-- Python `max(group, key=lambda e: e.confidence)`: the first entity with
maximal confidence.  Groups are nonempty; `[]` mirrors Python's error with a
default. -/
def pyMaxByConf : List ExtractedEntity → ExtractedEntity
  | [] => default
  | x :: xs =>
      xs.foldl (fun best e => if best.confidence < e.confidence then e else best) x

/-- Python `max(e.confidence for e in group)` on a nonempty group. -/
def maxConfOf : List ExtractedEntity → ℚ
  | [] => 0
  | x :: xs => xs.foldl (fun m e => max m e.confidence) x.confidence

/-- Ascending sort of a string set, Python `sorted(strings)`. -/
def sortedStrings (xs : List String) : List String :=
  pySorted (fun a b => strLeCore a.data b.data) xs

/-- The `source_paper_ids` property as iterated by `_resolve_with_alias_map`;
the pipeline only ever stores a list there (a non-list value would raise, a
string would be iterated character-wise by Python). -/
def propSourceIds (props : List (String × PropVal)) : List PropVal :=
  match alistGet props "source_paper_ids" with
  | some (.vlist xs) => xs.toList
  | _ => []

/-- The merged output entity of one group of `_resolve_with_alias_map`
(the body of its second loop), including the `__post_init__` name
normalization of the `ExtractedEntity` constructor. -/
def buildResolvedEntity (mergedKey : NameKey) (group : List ExtractedEntity) :
    ExtractedEntity :=
  let contextBucket := mergedKey.2.1
  let canonicalName := mergedKey.2.2
  let best := pyMaxByConf group
  let state := group.foldl
    (fun (acc : List String × List String) item =>
      let aliases := pySetAdd acc.2 item.name
      let ids₀ :=
        match item.sourcePaperId with
        | some s => if ¬ pyFalsy s then pySetAdd acc.1 s else acc.1
        | none => acc.1
      let ids := (propSourceIds item.properties).foldl
        (fun ids v => if v.pyTruthy then pySetAdd ids v.pyStr else ids) ids₀
      (ids, aliases))
    ([], [])
  let sourcePaperIds := state.1
  let aliases := state.2
  let props₀ := best.properties
  let props₁ := alistSet props₀ "source_paper_ids"
    (.vlist (PropValList.ofList ((sortedStrings sourcePaperIds).map .vstr)))
  let props₂ := alistSet props₁ "alias_count" (.vint aliases.length)
  let props₃ :=
    if ¬ aliases.isEmpty then
      alistSet props₂ "aliases"
        (.vlist (PropValList.ofList ((sortedStrings aliases).map .vstr)))
    else props₂
  let props₄ :=
    if contextBucket ≠ "__default__" then
      alistSet props₃ "resolution_context_bucket" (.vstr contextBucket)
    else props₃
  { entityType := best.entityType,
    name := postInitName canonicalName,
    definition := best.definition,
    description := best.description,
    confidence := maxConfOf group,
    sourcePaperId := none,
    properties := props₄ }

/-- `EntityResolutionService._resolve_with_alias_map`: group the records by
their aliased key and emit one merged entity per group. -/
def resolveWithAliasMap (records : List Record)
    (aliasMap : List (NameKey × String)) : List ExtractedEntity :=
  let grouped := records.foldl
    (fun (g : List (NameKey × List ExtractedEntity)) record =>
      let canonicalName := (alistGet aliasMap record.key).getD
        record.canonicalName
      let mergedKey : NameKey :=
        (record.entityType, record.contextBucket, canonicalName)
      pyGroupAdd g mergedKey record.entity)
    []
  grouped.map (fun kg => buildResolvedEntity kg.1 kg.2)

/-! ### Judge confirmation, audit samples, stats -/

/-- One audit sample of `_build_potential_false_merge_samples`. -/
structure FalseMergeSample where
  entityType : String
  contextBucket : String
  left : String
  right : String
  similarity : ℚ

/-- Python `round(x, 3)` (half-to-even) on the rational score model: with
`y = 1000*q = num/den` and floor `f`, the fractional remainder `rem/den` is
compared against one half by cross multiplication, ties going to the even
floor neighbour. -/
def pyRound3 (q : ℚ) : ℚ :=
  let y := qMul q (mkRat 1000 1)
  let den : ℤ := y.den
  let f : ℤ := y.num.fdiv den
  let rem : ℤ := y.num - f * den
  let n : ℤ :=
    if 2 * rem < den then f
    else if den < 2 * rem then f + 1
    else if f % 2 = 0 then f else f + 1
  mkRat n 1000

/-- `EntityResolutionService._build_potential_false_merge_samples`. -/
def buildPotentialFalseMergeSamples (uncertainPairs : List CandidatePair)
    (confirmedPairs : List (NameKey × NameKey)) (sampleLimit : Nat := 10) :
    List FalseMergeSample :=
  if uncertainPairs.isEmpty ∨ confirmedPairs.isEmpty then []
  else
    let scoreMap := uncertainPairs.foldl
      (fun (m : List ((NameKey × NameKey) × ℚ)) p =>
        alistSet (alistSet m (p.1, p.2.1) p.2.2) (p.2.1, p.1) p.2.2)
      []
    let sampled := confirmedPairs.filterMap
      (fun lr => (alistGet scoreMap lr).map (fun s => (lr.1, lr.2, s)))
    let sorted := pySorted (fun a b => decide (a.2.2 ≤ b.2.2)) sampled
    (sorted.take sampleLimit).map (fun lrs =>
      { entityType := lrs.1.1, contextBucket := lrs.1.2.1,
        left := lrs.1.2.2, right := lrs.2.1.2.2,
        similarity := pyRound3 lrs.2.2 })

/-- `EntityResolutionService._confirm_candidate_pairs_with_llm`: batch the
review pairs, consult the judge per batch, and collect the pairs whose
decision is `same=true` and whose id belongs to the batch.  A failed batch
(`.error`) contributes nothing; prompt construction is not modelled (the
response is consumed only through the parsed decision list).  A zero batch
size raises in Python (`range` step) and yields no batches here. -/
def confirmCandidatePairsWithLLM (eng : Engine)
    (reviewPairs : List CandidatePair) : List (NameKey × NameKey) :=
  match eng.llm with
  | none => []
  | some judge =>
      if reviewPairs.isEmpty then []
      else if eng.llmBatchSize = 0 then []
      else
        let bs := eng.llmBatchSize
        let batchCount := (reviewPairs.length + bs - 1) / bs
        (List.range batchCount).foldl
          (fun confirmed bi =>
            let batchStart := bi * bs
            let batch := (reviewPairs.drop batchStart).take bs
            if batch.isEmpty then confirmed
            else
              let idToPair := batch.enum.map (fun ip =>
                ("p" ++ toString (batchStart + ip.1 + 1),
                 (ip.2.1, ip.2.2.1)))
              match judge bi with
              | .error _ => confirmed
              | .ok decisions =>
                  decisions.foldl
                    (fun confirmed d =>
                      match d with
                      | .invalid => confirmed
                      | .dec id same =>
                          if same then
                            match alistGet idToPair id with
                            | some pair => pySetAdd confirmed pair
                            | none => confirmed
                          else confirmed)
                    confirmed)
          []

/-- The per-decision accumulator step of `_confirm_candidate_pairs_with_llm`
(named so the batch loop can be reasoned about; definitionally equal to the
inner fold body of `confirmCandidatePairsWithLLM`). -/
def decisionStep (idToPair : List (String × (NameKey × NameKey)))
    (confirmed : List (NameKey × NameKey)) (d : JudgeDecision) :
    List (NameKey × NameKey) :=
  match d with
  | .invalid => confirmed
  | .dec id same =>
      if same then
        match alistGet idToPair id with
        | some pair => pySetAdd confirmed pair
        | none => confirmed
      else confirmed

/-- The per-batch accumulator step of `_confirm_candidate_pairs_with_llm`
(definitionally equal to the batch fold body of
`confirmCandidatePairsWithLLM`). -/
def confirmStep (judge : Judge) (bs : Nat) (reviewPairs : List CandidatePair)
    (confirmed : List (NameKey × NameKey)) (bi : Nat) :
    List (NameKey × NameKey) :=
  let batchStart := bi * bs
  let batch := (reviewPairs.drop batchStart).take bs
  if batch.isEmpty then confirmed
  else
    let idToPair := batch.enum.map (fun ip =>
      ("p" ++ toString (batchStart + ip.1 + 1),
       (ip.2.1, ip.2.2.1)))
    match judge bi with
    | .error _ => confirmed
    | .ok decisions => decisions.foldl (decisionStep idToPair) confirmed

/-- `EntityResolutionStats`. -/
structure EntityResolutionStats where
  rawEntities : Nat
  resolvedEntities : Nat
  mergedEntities : Nat
  canonicalizationRate : ℚ
  llmPairsReviewed : Nat := 0
  llmPairsConfirmed : Nat := 0
  potentialFalseMergeCount : Nat := 0
  potentialFalseMergeSamples : List FalseMergeSample := []

/-- `EntityResolutionService.resolve_entities` (synchronous path).  The
`merged = max(0, raw - resolved)` clamp is the truncated `Nat` subtraction. -/
def resolveEntities (eng : Engine) (entities : List ExtractedEntity) :
    (List ExtractedEntity × EntityResolutionStats) × Engine :=
  if entities.isEmpty then
    (([], { rawEntities := 0, resolvedEntities := 0, mergedEntities := 0,
            canonicalizationRate := 0 }), eng)
  else
    let (records, eng₁) := buildRecords eng entities
    let nameStats := buildNameStats records
    let nameKeys := nameStats.map Prod.fst
    let aliasMap := buildAliasMap eng nameKeys nameStats []
    let resolved := resolveWithAliasMap records aliasMap
    let rawCount := entities.length
    let resolvedCount := resolved.length
    let mergedCount := rawCount - resolvedCount
    let rate : ℚ := if rawCount = 0 then 0 else mkRat mergedCount rawCount
    ((resolved,
      { rawEntities := rawCount, resolvedEntities := resolvedCount,
        mergedEntities := mergedCount, canonicalizationRate := rate }),
     eng₁)

/-- `EntityResolutionService.resolve_entities_async`: like the synchronous
path but with judge confirmation of the uncertain candidate band when enabled
and a judge is configured. -/
def resolveEntitiesAsync (eng : Engine) (entities : List ExtractedEntity)
    (useLlmConfirmation : Bool := true) :
    (List ExtractedEntity × EntityResolutionStats) × Engine :=
  if entities.isEmpty then resolveEntities eng entities
  else
    let (records, eng₁) := buildRecords eng entities
    let nameStats := buildNameStats records
    let nameKeys := nameStats.map Prod.fst
    let cu :=
      if useLlmConfirmation ∧ eng.llm.isSome ∧ 2 ≤ nameKeys.length then
        let reviewCandidates := generateCandidatePairs nameKeys
          eng.llmReviewThreshold (some eng.maxLlmPairChecks)
        let uncertainPairs := reviewCandidates.filter
          (fun p => decide (p.2.2 < eng.autoMergeThreshold))
        (confirmCandidatePairsWithLLM eng uncertainPairs, uncertainPairs)
      else ([], [])
    let confirmedPairs := cu.1
    let uncertainPairs := cu.2
    let aliasMap := buildAliasMap eng nameKeys nameStats confirmedPairs
    let resolved := resolveWithAliasMap records aliasMap
    let rawCount := entities.length
    let resolvedCount := resolved.length
    let mergedCount := rawCount - resolvedCount
    let rate : ℚ := if rawCount = 0 then 0 else mkRat mergedCount rawCount
    let samples := buildPotentialFalseMergeSamples uncertainPairs
      confirmedPairs
    let scoreMap := uncertainPairs.foldl
      (fun (m : List ((NameKey × NameKey) × ℚ)) p =>
        alistSet (alistSet m (p.1, p.2.1) p.2.2) (p.2.1, p.1) p.2.2)
      []
    let potentialFalseMergeCount :=
      (confirmedPairs.filter (fun lr => (alistGet scoreMap lr).isSome)).length
    ((resolved,
      { rawEntities := rawCount, resolvedEntities := resolvedCount,
        mergedEntities := mergedCount, canonicalizationRate := rate,
        llmPairsReviewed := uncertainPairs.length,
        llmPairsConfirmed := confirmedPairs.length,
        potentialFalseMergeCount := potentialFalseMergeCount,
        potentialFalseMergeSamples := samples }),
     eng₁)

/-- The tail of `resolve_entities_async` once the confirmed/uncertain pair
lists are fixed (definitionally equal to the corresponding part of
`resolveEntitiesAsync`; it lets the confirmation outcome be analysed in
isolation). -/
def resolveAsyncFinish (eng : Engine) (entities : List ExtractedEntity)
    (records : List Record) (eng₁ : Engine)
    (cu : List (NameKey × NameKey) × List CandidatePair) :
    (List ExtractedEntity × EntityResolutionStats) × Engine :=
  let nameStats := buildNameStats records
  let nameKeys := nameStats.map Prod.fst
  let confirmedPairs := cu.1
  let uncertainPairs := cu.2
  let aliasMap := buildAliasMap eng nameKeys nameStats confirmedPairs
  let resolved := resolveWithAliasMap records aliasMap
  let rawCount := entities.length
  let resolvedCount := resolved.length
  let mergedCount := rawCount - resolvedCount
  let rate : ℚ := if rawCount = 0 then 0 else mkRat mergedCount rawCount
  let samples := buildPotentialFalseMergeSamples uncertainPairs
    confirmedPairs
  let scoreMap := uncertainPairs.foldl
    (fun (m : List ((NameKey × NameKey) × ℚ)) p =>
      alistSet (alistSet m (p.1, p.2.1) p.2.2) (p.2.1, p.1) p.2.2)
    []
  let potentialFalseMergeCount :=
    (confirmedPairs.filter (fun lr => (alistGet scoreMap lr).isSome)).length
  ((resolved,
    { rawEntities := rawCount, resolvedEntities := resolvedCount,
      mergedEntities := mergedCount, canonicalizationRate := rate,
      llmPairsReviewed := uncertainPairs.length,
      llmPairsConfirmed := confirmedPairs.length,
      potentialFalseMergeCount := potentialFalseMergeCount,
      potentialFalseMergeSamples := samples }),
   eng₁)

/-! ## Lemma infrastructure -/

section AListLemmas

variable {α β : Type} [DecidableEq α]

theorem alistGet_set (m : List (α × β)) (k : α) (v : β) (k' : α) :
    alistGet (alistSet m k v) k' =
      if k' = k then some v else alistGet m k' := by
  induction m with
  | nil =>
      by_cases h : k' = k
      · subst h
        simp [alistSet, alistGet]
      · have h' : ¬ k = k' := fun hh => h hh.symm
        simp [alistSet, alistGet, h, h']
  | cons kv rest ih =>
      obtain ⟨k₀, v₀⟩ := kv
      simp only [alistSet]
      by_cases h₀ : k₀ = k
      · subst h₀
        by_cases h₁ : k' = k₀
        · subst h₁
          simp [alistGet]
        · have h₂ : ¬ k₀ = k' := fun hh => h₁ hh.symm
          simp [alistGet, h₁, h₂]
      · simp only [if_neg h₀, alistGet]
        by_cases h₁ : k₀ = k'
        · subst h₁
          have h₂ : ¬ k₀ = k := h₀
          simp [h₂]
        · simp [h₁, ih]

theorem alistSet_of_not_mem (m : List (α × β)) (k : α) (v : β)
    (h : k ∉ m.map Prod.fst) : alistSet m k v = m ++ [(k, v)] := by
  induction m with
  | nil => simp [alistSet]
  | cons kv rest ih =>
      obtain ⟨k₀, v₀⟩ := kv
      simp only [List.map_cons, List.mem_cons] at h
      push_neg at h
      simp only [alistSet, if_neg (fun h' : k₀ = k => h.1 h'.symm),
        List.cons_append]
      rw [ih h.2]

theorem alistGet_of_not_mem (m : List (α × β)) (k : α)
    (h : k ∉ m.map Prod.fst) : alistGet m k = none := by
  induction m with
  | nil => rfl
  | cons kv rest ih =>
      obtain ⟨k₀, v₀⟩ := kv
      simp only [List.map_cons, List.mem_cons] at h
      push_neg at h
      simp only [alistGet, if_neg (fun h' : k₀ = k => h.1 h'.symm)]
      exact ih h.2

theorem alistGet_self_map (keys : List α) (k : α) (h : k ∈ keys) :
    alistGet (keys.map (fun x => (x, x))) k = some k := by
  induction keys with
  | nil => cases h
  | cons k₀ rest ih =>
      simp only [List.map_cons, alistGet]
      by_cases h₀ : k₀ = k
      · simp [h₀]
      · rcases List.mem_cons.1 h with h₁ | h₁
        · exact absurd h₁.symm h₀
        · simp [h₀, ih h₁]

theorem alistGet_isSome_of_mem (m : List (α × β)) (kv : α × β)
    (h : kv ∈ m) : (alistGet m kv.1).isSome := by
  induction m with
  | nil => cases h
  | cons kv₀ rest ih =>
      obtain ⟨k₀, v₀⟩ := kv₀
      simp only [alistGet]
      by_cases h₀ : k₀ = kv.1
      · simp [h₀]
      · rcases List.mem_cons.1 h with h₁ | h₁
        · subst h₁
          exact absurd rfl h₀
        · simp only [if_neg h₀]
          exact ih h₁

theorem alistGet_mem_of_nodup (m : List (α × β)) (k : α) (v : β)
    (hnd : (m.map Prod.fst).Nodup) :
    (k, v) ∈ m ↔ alistGet m k = some v := by
  induction m with
  | nil => simp [alistGet]
  | cons kv₀ rest ih =>
      obtain ⟨k₀, v₀⟩ := kv₀
      simp only [List.map_cons, List.nodup_cons] at hnd
      simp only [List.mem_cons, alistGet]
      by_cases h₀ : k₀ = k
      · subst h₀
        constructor
        · intro h
          rcases h with h | h
          · simp only [Prod.mk.injEq] at h
            simp [alistGet, h.2]
          · exact absurd (List.mem_map_of_mem Prod.fst h) hnd.1
        · intro h
          simp [alistGet] at h
          subst h
          exact Or.inl rfl
      · simp only [if_neg h₀]
        rw [← ih hnd.2]
        constructor
        · rintro (h | h)
          · exact absurd (congrArg Prod.fst h).symm h₀
          · exact h
        · exact Or.inr

end AListLemmas

section GroupLemmas

variable {κ β : Type} [DecidableEq κ]

/-- The generic `setdefault`/`append` grouping fold over explicit key/value
pairs; both grouping loops of the engine are instances of it. -/
def groupPairsFold (ps : List (κ × β)) (acc : List (κ × List β)) :
    List (κ × List β) :=
  ps.foldl (fun g p => pyGroupAdd g p.1 p.2) acc

theorem pyGroupAdd_get (g : List (κ × List β)) (k : κ) (x : β) (k' : κ) :
    alistGet (pyGroupAdd g k x) k' =
      if k' = k then some ((alistGet g k).getD [] ++ [x])
      else alistGet g k' := by
  induction g with
  | nil =>
      by_cases h : k' = k
      · subst h
        simp [pyGroupAdd, alistGet]
      · have h' : ¬ k = k' := fun hh => h hh.symm
        simp [pyGroupAdd, alistGet, h, h']
  | cons kv rest ih =>
      obtain ⟨k₀, g₀⟩ := kv
      simp only [pyGroupAdd]
      by_cases h₀ : k₀ = k
      · subst h₀
        by_cases h₁ : k' = k₀
        · subst h₁
          simp [alistGet]
        · have h₂ : ¬ k₀ = k' := fun hh => h₁ hh.symm
          simp [alistGet, h₁, h₂]
      · simp only [if_neg h₀, alistGet]
        by_cases h₁ : k₀ = k'
        · subst h₁
          have h₂ : ¬ k₀ = k := h₀
          simp [h₂]
        · simp [h₁, ih]

theorem pyGroupAdd_of_not_mem (g : List (κ × List β)) (k : κ) (x : β)
    (h : k ∉ g.map Prod.fst) : pyGroupAdd g k x = g ++ [(k, [x])] := by
  induction g with
  | nil => simp [pyGroupAdd]
  | cons kv rest ih =>
      obtain ⟨k₀, g₀⟩ := kv
      simp only [List.map_cons, List.mem_cons] at h
      push_neg at h
      simp only [pyGroupAdd, if_neg (fun h' : k₀ = k => h.1 h'.symm),
        List.cons_append]
      rw [ih h.2]

theorem pyGroupAdd_keys (g : List (κ × List β)) (k : κ) (x : β) :
    (pyGroupAdd g k x).map Prod.fst =
      if k ∈ g.map Prod.fst then g.map Prod.fst
      else g.map Prod.fst ++ [k] := by
  induction g with
  | nil => simp [pyGroupAdd]
  | cons kv rest ih =>
      obtain ⟨k₀, g₀⟩ := kv
      simp only [pyGroupAdd, List.map_cons, List.mem_cons]
      by_cases h₀ : k₀ = k
      · subst h₀
        simp
      · have h₀' : ¬ k = k₀ := fun hh => h₀ hh.symm
        simp only [if_neg h₀, List.map_cons, ih]
        by_cases h₁ : k ∈ rest.map Prod.fst
        · simp [h₁, h₀']
        · simp [h₁, h₀']

theorem pyGroupAdd_keys_nodup (g : List (κ × List β)) (k : κ) (x : β)
    (h : (g.map Prod.fst).Nodup) :
    ((pyGroupAdd g k x).map Prod.fst).Nodup := by
  rw [pyGroupAdd_keys]
  by_cases h₁ : k ∈ g.map Prod.fst
  · simpa [h₁]
  · simpa [h₁] using List.Nodup.append h (List.nodup_singleton k)
      (by simpa using h₁)

theorem groupPairsFold_get (ps : List (κ × β)) :
    ∀ (acc : List (κ × List β)) (k : κ),
      alistGet (groupPairsFold ps acc) k =
        match alistGet acc k with
        | some g => some (g ++ (ps.filter (fun p => p.1 = k)).map Prod.snd)
        | none =>
            if (ps.filter (fun p => p.1 = k)).isEmpty then none
            else some ((ps.filter (fun p => p.1 = k)).map Prod.snd) := by
  induction ps with
  | nil =>
      intro acc k
      cases h : alistGet acc k <;> simp [groupPairsFold, h]
  | cons p ps ih =>
      intro acc k
      have step : groupPairsFold (p :: ps) acc =
          groupPairsFold ps (pyGroupAdd acc p.1 p.2) := rfl
      rw [step, ih]
      by_cases hk : p.1 = k
      · have hfil : (p :: ps).filter (fun q => q.1 = k) =
            p :: ps.filter (fun q => q.1 = k) := by
          simp [List.filter_cons, hk]
        rw [pyGroupAdd_get]
        rw [if_pos hk.symm, hfil]
        cases h : alistGet acc k <;> simp [hk, h]
      · have hfil : (p :: ps).filter (fun q => q.1 = k) =
            ps.filter (fun q => q.1 = k) := by
          simp [List.filter_cons, hk]
        rw [pyGroupAdd_get, if_neg (fun hh => hk hh.symm), hfil]

theorem groupPairsFold_keys_nodup (ps : List (κ × β))
    (acc : List (κ × List β)) (h : (acc.map Prod.fst).Nodup) :
    ((groupPairsFold ps acc).map Prod.fst).Nodup := by
  induction ps generalizing acc with
  | nil => exact h
  | cons p ps ih =>
      exact ih (pyGroupAdd acc p.1 p.2) (pyGroupAdd_keys_nodup acc p.1 p.2 h)

theorem groupPairsFold_mem_iff (ps : List (κ × β)) (k : κ) (g : List β) :
    (k, g) ∈ groupPairsFold ps [] ↔
      g = (ps.filter (fun p => p.1 = k)).map Prod.snd ∧ g ≠ [] := by
  rw [alistGet_mem_of_nodup _ _ _
    (groupPairsFold_keys_nodup ps [] (by simp))]
  rw [groupPairsFold_get]
  have hbase : alistGet ([] : List (κ × List β)) k = none := rfl
  rw [hbase]
  by_cases h : (ps.filter (fun p => p.1 = k)).isEmpty
  · rw [List.isEmpty_iff] at h
    rw [h]
    simp
  · have hemp : (ps.filter (fun p => p.1 = k)).isEmpty = false := by
      simpa using h
    rw [List.isEmpty_iff] at h
    simp only [hemp, Bool.false_eq_true, if_false]
    constructor
    · intro hg
      have heq := Option.some_inj.1 hg
      refine ⟨heq.symm, ?_⟩
      rw [← heq]
      simpa using h
    · intro hg
      rw [hg.1]

theorem groupPairsFold_length (ps : List (κ × β))
    (h : (ps.map Prod.fst).Nodup) :
    (groupPairsFold ps []).length = ps.length := by
  suffices H : ∀ acc : List (κ × List β),
      ((acc.map Prod.fst) ++ ps.map Prod.fst).Nodup →
      (groupPairsFold ps acc).length = acc.length + ps.length by
    simpa using H [] (by simpa using h)
  clear h
  induction ps with
  | nil => intro acc _; simp [groupPairsFold]
  | cons p ps ih =>
      intro acc hacc
      have hnotmem : p.1 ∉ acc.map Prod.fst := by
        intro hmem
        have hdisj := (List.nodup_append.1 hacc).2.2
        exact hdisj hmem (by simp)
      have step : groupPairsFold (p :: ps) acc =
          groupPairsFold ps (pyGroupAdd acc p.1 p.2) := rfl
      rw [step, pyGroupAdd_of_not_mem _ _ _ hnotmem]
      have hacc' : (((acc ++ [(p.1, [p.2])]).map Prod.fst) ++
          ps.map Prod.fst).Nodup := by
        simp only [List.map_append, List.map_cons, List.map_nil]
        simp only [List.map_cons] at hacc
        rw [List.append_assoc]
        simpa [List.append_assoc] using hacc
      rw [ih _ hacc']
      simp only [List.length_append, List.length_cons, List.length_nil]
      omega

/-- Two distinct members force length at least two. -/
theorem two_le_length_of_mem_ne {γ : Type} {l : List γ} {a b : γ}
    (ha : a ∈ l) (hb : b ∈ l) (hne : a ≠ b) : 2 ≤ l.length := by
  match l with
  | [] => cases ha
  | [x] =>
      rcases List.mem_singleton.1 ha with rfl
      rcases List.mem_singleton.1 hb with rfl
      exact absurd rfl hne
  | x :: y :: rest => simp [List.length_cons]

end GroupLemmas

section PairLemmas

theorem pyGroupBy_eq_fold {α κ : Type} [DecidableEq κ] (f : α → κ)
    (xs : List α) :
    pyGroupBy f xs = groupPairsFold (xs.map (fun x => (f x, x))) [] := by
  unfold pyGroupBy groupPairsFold
  rw [List.foldl_map]

theorem pyGroupBy_mem_iff {α κ : Type} [DecidableEq κ] (f : α → κ)
    (xs : List α) (k : κ) (g : List α) :
    (k, g) ∈ pyGroupBy f xs ↔
      g = xs.filter (fun x => f x = k) ∧ g ≠ [] := by
  rw [pyGroupBy_eq_fold, groupPairsFold_mem_iff]
  have hmap : ((xs.map (fun x => (f x, x))).filter
      (fun p => p.1 = k)).map Prod.snd = xs.filter (fun x => f x = k) := by
    induction xs with
    | nil => rfl
    | cons x xs ih =>
        simp only [List.map_cons, List.filter_cons]
        by_cases hx : f x = k
        · simp [hx, ih]
        · simp [hx, ih]
  rw [hmap]

theorem mem_of_mem_orderedPairs {α : Type} {l : List α} {a b : α}
    (h : (a, b) ∈ orderedPairs l) : a ∈ l ∧ b ∈ l := by
  induction l with
  | nil => cases h
  | cons x xs ih =>
      simp only [orderedPairs, List.mem_append, List.mem_map] at h
      rcases h with ⟨y, hy, heq⟩ | h
      · injection heq with h₁ h₂
        subst h₁
        subst h₂
        exact ⟨List.mem_cons_self x xs, List.mem_cons_of_mem x hy⟩
      · have hm := ih h
        exact ⟨List.mem_cons_of_mem _ hm.1, List.mem_cons_of_mem _ hm.2⟩

theorem rel_of_mem_orderedPairs {α : Type} {R : α → α → Prop} {l : List α}
    {a b : α} (hp : l.Pairwise R) (h : (a, b) ∈ orderedPairs l) : R a b := by
  induction l with
  | nil => cases h
  | cons x xs ih =>
      rcases List.pairwise_cons.1 hp with ⟨hx, hxs⟩
      simp only [orderedPairs, List.mem_append, List.mem_map] at h
      rcases h with ⟨y, hy, heq⟩ | h
      · injection heq with h₁ h₂
        subst h₁
        subst h₂
        exact hx _ hy
      · exact ih hxs h

theorem strLeCore_trans : ∀ as bs cs : List Char,
    strLeCore as bs → strLeCore bs cs → strLeCore as cs := by
  intro as
  induction as with
  | nil => intro bs cs _ _; simp [strLeCore]
  | cons a as ih =>
      intro bs cs h1 h2
      cases bs with
      | nil => simp [strLeCore] at h1
      | cons b bs =>
          cases cs with
          | nil => simp [strLeCore] at h2
          | cons c cs =>
              simp only [strLeCore] at h1 h2 ⊢
              by_cases hab : a.toNat < b.toNat
              · by_cases hbc : b.toNat < c.toNat
                · have hac : a.toNat < c.toNat := by omega
                  simp [hac]
                · by_cases hcb : c.toNat < b.toNat
                  · rw [if_neg hbc, if_pos hcb] at h2
                    cases h2
                  · have hac : a.toNat < c.toNat := by omega
                    simp [hac]
              · by_cases hba : b.toNat < a.toNat
                · rw [if_neg hab, if_pos hba] at h1
                  cases h1
                · rw [if_neg hab, if_neg hba] at h1
                  by_cases hbc : b.toNat < c.toNat
                  · have hac : a.toNat < c.toNat := by omega
                    simp [hac]
                  · by_cases hcb : c.toNat < b.toNat
                    · rw [if_neg hbc, if_pos hcb] at h2
                      cases h2
                    · rw [if_neg hbc, if_neg hcb] at h2
                      have hac : ¬ a.toNat < c.toNat := by omega
                      have hca : ¬ c.toNat < a.toNat := by omega
                      rw [if_neg hac, if_neg hca]
                      exact ih bs cs h1 h2

theorem strLeCore_total : ∀ as bs : List Char,
    strLeCore as bs || strLeCore bs as := by
  intro as
  induction as with
  | nil => intro bs; simp [strLeCore]
  | cons a as ih =>
      intro bs
      cases bs with
      | nil => simp [strLeCore]
      | cons b bs =>
          simp only [strLeCore]
          by_cases hab : a.toNat < b.toNat
          · simp [hab]
          · by_cases hba : b.toNat < a.toNat
            · simp [hab, hba]
            · simp only [if_neg hab, if_neg hba]
              simpa using ih bs

theorem strLtCore_irrefl : ∀ as : List Char, strLtCore as as = false := by
  intro as
  induction as with
  | nil => rfl
  | cons a as ih => simp [strLtCore, ih]

theorem strLtCore_not_le : ∀ as bs : List Char,
    strLtCore as bs → strLeCore bs as = false := by
  intro as
  induction as with
  | nil =>
      intro bs h
      cases bs with
      | nil => cases h
      | cons b bs => rfl
  | cons a as ih =>
      intro bs h
      cases bs with
      | nil => cases h
      | cons b bs =>
          simp only [strLtCore] at h
          simp only [strLeCore]
          by_cases hab : a.toNat < b.toNat
          · have hba : ¬ b.toNat < a.toNat := by omega
            rw [if_neg hba, if_pos hab]
          · by_cases hba : b.toNat < a.toNat
            · rw [if_neg hab, if_pos hba] at h
              cases h
            · rw [if_neg hab, if_neg hba] at h
              rw [if_neg hba, if_neg hab]
              exact ih bs h

theorem pySortInsert_perm {γ : Type} (le : γ → γ → Bool) (x : γ)
    (l : List γ) : (pySortInsert le x l).Perm (x :: l) := by
  induction l with
  | nil => exact List.Perm.refl _
  | cons y ys ih =>
      simp only [pySortInsert]
      by_cases h : le x y
      · rw [if_pos h]
      · rw [if_neg h]
        exact (List.Perm.cons y ih).trans (List.Perm.swap x y ys)

theorem pySorted_perm {γ : Type} (le : γ → γ → Bool) (l : List γ) :
    (pySorted le l).Perm l := by
  induction l with
  | nil => exact List.Perm.refl _
  | cons x xs ih =>
      exact (pySortInsert_perm le x (pySorted le xs)).trans (ih.cons x)

theorem mem_pySorted {γ : Type} (le : γ → γ → Bool) (l : List γ) (a : γ) :
    a ∈ pySorted le l ↔ a ∈ l :=
  (pySorted_perm le l).mem_iff

theorem pairwise_pySortInsert {γ : Type} (le : γ → γ → Bool)
    (htrans : ∀ a b c, le a b → le b c → le a c)
    (htotal : ∀ a b, le a b || le b a) (x : γ) (l : List γ)
    (hl : l.Pairwise (fun a b => le a b = true)) :
    (pySortInsert le x l).Pairwise (fun a b => le a b = true) := by
  induction l with
  | nil => simp [pySortInsert]
  | cons y ys ih =>
      rcases List.pairwise_cons.1 hl with ⟨hy, hys⟩
      simp only [pySortInsert]
      by_cases h : le x y
      · rw [if_pos h]
        refine List.pairwise_cons.2 ⟨?_, hl⟩
        intro z hz
        rcases List.mem_cons.1 hz with rfl | hz'
        · exact h
        · exact htrans x y z h (hy z hz')
      · rw [if_neg h]
        refine List.pairwise_cons.2 ⟨?_, ih hys⟩
        intro z hz
        have hz' := (pySortInsert_perm le x ys).mem_iff.1 hz
        rcases List.mem_cons.1 hz' with hzx | hz''
        · subst hzx
          have htot := htotal z y
          rcases Bool.or_eq_true_iff.1 (by simpa using htot) with hxy | hyx
          · exact absurd hxy h
          · exact hyx
        · exact hy z hz''

theorem pairwise_pySorted {γ : Type} (le : γ → γ → Bool)
    (htrans : ∀ a b c, le a b → le b c → le a c)
    (htotal : ∀ a b, le a b || le b a) (l : List γ) :
    (pySorted le l).Pairwise (fun a b => le a b = true) := by
  induction l with
  | nil => simp [pySorted]
  | cons x xs ih => exact pairwise_pySortInsert le htrans htotal x _ ih

theorem orderedPairs_complete {l : List NameKey} {a b : NameKey}
    (hp : l.Pairwise (fun x y => byThird x y = true))
    (ha : a ∈ l) (hb : b ∈ l)
    (hab : strLtCore a.2.2.data b.2.2.data) :
    (a, b) ∈ orderedPairs l := by
  induction l with
  | nil => cases ha
  | cons x xs ih =>
      rcases List.pairwise_cons.1 hp with ⟨hx, hxs⟩
      simp only [orderedPairs, List.mem_append, List.mem_map]
      rcases List.mem_cons.1 ha with rfl | ha'
      · rcases List.mem_cons.1 hb with rfl | hb'
        · rw [strLtCore_irrefl] at hab
          cases hab
        · exact Or.inl ⟨b, hb', rfl⟩
      · rcases List.mem_cons.1 hb with rfl | hb'
        · have hle : strLeCore b.2.2.data a.2.2.data = true := hx a ha'
          rw [strLtCore_not_le _ _ hab] at hle
          cases hle
        · exact Or.inr (ih hxs ha' hb')

theorem byThird_trans (a b c : NameKey) (h₁ : byThird a b) (h₂ : byThird b c) :
    byThird a c :=
  strLeCore_trans _ _ _ h₁ h₂

theorem byThird_total (a b : NameKey) : byThird a b || byThird b a :=
  strLeCore_total _ _

theorem byScoreDesc_trans (a b c : CandidatePair) (h₁ : byScoreDesc a b)
    (h₂ : byScoreDesc b c) : byScoreDesc a c := by
  simp only [byScoreDesc, decide_eq_true_eq] at *
  exact le_trans h₂ h₁

theorem byScoreDesc_total (a b : CandidatePair) :
    byScoreDesc a b || byScoreDesc b a := by
  simp only [byScoreDesc, Bool.or_eq_true, decide_eq_true_eq]
  exact (le_total b.2.2 a.2.2)

theorem rankLe_trans {x y z : Nat × ℚ × Nat} (h₁ : rankLe x y)
    (h₂ : rankLe y z) : rankLe x z := by
  simp only [rankLe, Bool.or_eq_true, Bool.and_eq_true, decide_eq_true_eq]
    at *
  rcases h₁ with h₁ | ⟨he₁, h₁⟩
  · rcases h₂ with h₂ | ⟨he₂, _⟩
    · exact Or.inl (lt_trans h₁ h₂)
    · exact Or.inl (he₂ ▸ h₁)
  · rcases h₂ with h₂ | ⟨he₂, h₂⟩
    · exact Or.inl (he₁ ▸ h₂)
    · refine Or.inr ⟨he₁.trans he₂, ?_⟩
      rcases h₁ with h₁ | ⟨hq₁, h₁⟩
      · rcases h₂ with h₂ | ⟨hq₂, _⟩
        · exact Or.inl (lt_trans h₁ h₂)
        · exact Or.inl (hq₂ ▸ h₁)
      · rcases h₂ with h₂ | ⟨hq₂, h₂⟩
        · exact Or.inl (hq₁ ▸ h₂)
        · exact Or.inr ⟨hq₁.trans hq₂, le_trans h₁ h₂⟩

theorem rankLe_total (x y : Nat × ℚ × Nat) : rankLe x y || rankLe y x := by
  simp only [rankLe, Bool.or_eq_true, Bool.and_eq_true, decide_eq_true_eq]
  rcases lt_trichotomy x.1 y.1 with h | h | h
  · exact Or.inl (Or.inl h)
  · rcases lt_trichotomy x.2.1 y.2.1 with hq | hq | hq
    · exact Or.inl (Or.inr ⟨h, Or.inl hq⟩)
    · rcases le_total x.2.2 y.2.2 with hn | hn
      · exact Or.inl (Or.inr ⟨h, Or.inr ⟨hq, hn⟩⟩)
      · exact Or.inr (Or.inr ⟨h.symm, Or.inr ⟨hq.symm, hn⟩⟩)
    · exact Or.inr (Or.inr ⟨h.symm, Or.inl hq⟩)
  · exact Or.inr (Or.inl h)

/-- Head of a stable sort with a transitive total comparison is a maximum for
that comparison (used for Python `sorted(..., reverse=True)[0]`). -/
theorem headD_pySorted_best {γ : Type} (le : γ → γ → Bool)
    (htrans : ∀ a b c, le a b → le b c → le a c)
    (htotal : ∀ a b, le a b || le b a)
    (l : List γ) (hne : l ≠ []) (d : γ) :
    (pySorted le l).headD d ∈ l ∧
      ∀ x ∈ l, le ((pySorted le l).headD d) x := by
  have hperm := pySorted_perm le l
  have hsorted := pairwise_pySorted le htrans htotal l
  match hms : pySorted le l with
  | [] =>
      have hnil : l = [] := by
        have hlen := hperm.length_eq
        rw [hms] at hlen
        exact List.length_eq_zero.1 hlen.symm
      exact absurd hnil hne
  | h :: t =>
      rw [hms] at hperm hsorted
      constructor
      · exact hperm.subset (List.mem_cons_self h t)
      · intro x hx
        have hx' : x ∈ h :: t := hperm.mem_iff.2 hx
        rcases List.mem_cons.1 hx' with rfl | hx''
        · have := htotal x x
          simpa using this
        · exact (List.pairwise_cons.1 hsorted).1 x hx''

/-- Soundness of the candidate generator: every emitted pair joins two keys of
the input that share entity type and context bucket, passed the length
blocking, is name-ordered, carries exactly the hybrid similarity score, and
meets the threshold. -/
theorem mem_generateCandidatePairs (keys : List NameKey) (minSim : ℚ)
    (maxPairs : Option Nat) (c : CandidatePair)
    (hc : c ∈ generateCandidatePairs keys minSim maxPairs) :
    c.1 ∈ keys ∧ c.2.1 ∈ keys ∧
    c.1.1 = c.2.1.1 ∧ c.1.2.1 = c.2.1.2.1 ∧
    strLeCore c.1.2.2.data c.2.1.2.2.data = true ∧
    (c.1.2.2.length : ℤ) - c.2.1.2.2.length ≤ 20 ∧
    (c.2.1.2.2.length : ℤ) - c.1.2.2.length ≤ 20 ∧
    c.2.2 = similarityScore c.1.2.2 c.2.1.2.2 ∧
    minSim ≤ c.2.2 := by
  unfold generateCandidatePairs at hc
  by_cases hlen : keys.length < 2
  · rw [if_pos hlen] at hc
    cases hc
  · rw [if_neg hlen] at hc
    have hc' : c ∈ pySorted byScoreDesc
        (((pyGroupBy (fun k : NameKey => (k.1, k.2.1))
          keys).map Prod.snd).flatMap (blockCandidates minSim)) := by
      cases maxPairs with
      | none => exact hc
      | some m => exact List.mem_of_mem_take hc
    rw [mem_pySorted, List.mem_flatMap] at hc'
    obtain ⟨g, hg, hcg⟩ := hc'
    rw [List.mem_map] at hg
    obtain ⟨⟨bk, g'⟩, hbkg, hgeq⟩ := hg
    rcases (pyGroupBy_mem_iff _ keys bk g').1 hbkg with ⟨hfil, _⟩
    unfold blockCandidates at hcg
    by_cases h2 : g.length < 2
    · rw [if_pos h2] at hcg
      cases hcg
    · rw [if_neg h2, List.mem_filterMap] at hcg
      obtain ⟨⟨l, r⟩, hlr, hsome⟩ := hcg
      have hmem := mem_of_mem_orderedPairs hlr
      have hlg : l ∈ g := (mem_pySorted byThird g l).1 hmem.1
      have hrg : r ∈ g := (mem_pySorted byThird g r).1 hmem.2
      have hsorted := pairwise_pySorted byThird
        byThird_trans byThird_total g
      have hnm := rel_of_mem_orderedPairs hsorted hlr
      have hnmle : strLeCore l.2.2.data r.2.2.data = true := hnm
      have hgg' : g = g' := hgeq.symm
      have hlkeys : l ∈ keys ∧ ((l.1, l.2.1) = bk) := by
        have := hgg' ▸ hlg
        rw [hfil, List.mem_filter] at this
        exact ⟨this.1, by simpa using this.2⟩
      have hrkeys : r ∈ keys ∧ ((r.1, r.2.1) = bk) := by
        have := hgg' ▸ hrg
        rw [hfil, List.mem_filter] at this
        exact ⟨this.1, by simpa using this.2⟩
      have hblock : l.1 = r.1 ∧ l.2.1 = r.2.1 := by
        have h' := hlkeys.2.trans hrkeys.2.symm
        rw [Prod.mk.injEq] at h'
        exact h'
      have hsome' :
          (if 20 < (l.2.2.length : ℤ) - r.2.2.length ∨
              20 < (r.2.2.length : ℤ) - l.2.2.length then none
           else if minSim ≤ similarityScore l.2.2 r.2.2 then
              some (l, r, similarityScore l.2.2 r.2.2)
           else none) = some c := hsome
      by_cases hskip : 20 < (l.2.2.length : ℤ) - r.2.2.length ∨
          20 < (r.2.2.length : ℤ) - l.2.2.length
      · rw [if_pos hskip] at hsome'
        cases hsome'
      · rw [if_neg hskip] at hsome'
        by_cases hmin : minSim ≤ similarityScore l.2.2 r.2.2
        · rw [if_pos hmin] at hsome'
          have hceq := Option.some_inj.1 hsome'
          subst hceq
          push_neg at hskip
          exact ⟨hlkeys.1, hrkeys.1, hblock.1, hblock.2, hnmle,
            hskip.1, hskip.2, rfl, hmin⟩
        · rw [if_neg hmin] at hsome'
          cases hsome'

/-- Completeness of the candidate generator with no truncation: every
name-ordered pair of distinct input keys in a common block that passes length
blocking and the threshold is emitted with its hybrid score. -/
theorem generateCandidatePairs_complete (keys : List NameKey) (minSim : ℚ)
    (l r : NameKey)
    (hl : l ∈ keys) (hr : r ∈ keys)
    (ht : l.1 = r.1) (hb : l.2.1 = r.2.1)
    (hname : strLtCore l.2.2.data r.2.2.data = true)
    (hlen₁ : (l.2.2.length : ℤ) - r.2.2.length ≤ 20)
    (hlen₂ : (r.2.2.length : ℤ) - l.2.2.length ≤ 20)
    (hmin : minSim ≤ similarityScore l.2.2 r.2.2) :
    (l, r, similarityScore l.2.2 r.2.2) ∈
      generateCandidatePairs keys minSim none := by
  have hne : l ≠ r := by
    intro h
    rw [h, strLtCore_irrefl] at hname
    cases hname
  have h2 : ¬ keys.length < 2 := by
    have := two_le_length_of_mem_ne hl hr hne
    omega
  unfold generateCandidatePairs
  rw [if_neg h2]
  rw [mem_pySorted, List.mem_flatMap]
  set bk : String × String := (l.1, l.2.1) with hbk
  set g : List NameKey :=
    keys.filter (fun x => (x.1, x.2.1) = bk) with hgdef
  refine ⟨g, ?_, ?_⟩
  · rw [List.mem_map]
    refine ⟨(bk, g), ?_, rfl⟩
    rw [pyGroupBy_mem_iff]
    refine ⟨rfl, ?_⟩
    intro hnil
    have : l ∈ g := by
      rw [hgdef, List.mem_filter]
      exact ⟨hl, by simp⟩
    rw [hnil] at this
    cases this
  · have hlg : l ∈ g := by
      rw [hgdef, List.mem_filter]
      exact ⟨hl, by simp⟩
    have hrg : r ∈ g := by
      rw [hgdef, List.mem_filter]
      refine ⟨hr, ?_⟩
      simp [hbk, ht.symm, hb.symm]
    unfold blockCandidates
    have hg2 : ¬ g.length < 2 := by
      have := two_le_length_of_mem_ne hlg hrg hne
      omega
    rw [if_neg hg2, List.mem_filterMap]
    refine ⟨(l, r), ?_, ?_⟩
    · have hsorted := pairwise_pySorted byThird
        byThird_trans byThird_total g
      exact orderedPairs_complete hsorted
        ((mem_pySorted byThird g l).2 hlg) ((mem_pySorted byThird g r).2 hrg)
        hname
    · show (if 20 < (l.2.2.length : ℤ) - r.2.2.length ∨
            20 < (r.2.2.length : ℤ) - l.2.2.length then none
          else if minSim ≤ similarityScore l.2.2 r.2.2 then
            some (l, r, similarityScore l.2.2 r.2.2)
          else none) = some (l, r, similarityScore l.2.2 r.2.2)
      rw [if_neg (by push_neg; exact ⟨hlen₁, hlen₂⟩), if_pos hmin]

end PairLemmas

section BucketLemmas

theorem bestBucketFold_zero_aux (text : String) :
    ∀ (rules : List (String × List String)) (acc : String × Nat),
      (∀ rule ∈ rules, keywordScore rule.2 text = 0) →
      rules.foldl
        (fun best rule =>
          let score := keywordScore rule.2 text
          if best.2 < score then (rule.1, score) else best) acc = acc := by
  intro rules
  induction rules with
  | nil => intro acc _; rfl
  | cons rule rest ih =>
      intro acc h
      have h0 : keywordScore rule.2 text = 0 :=
        h rule (List.mem_cons_self _ _)
      simp only [List.foldl_cons, h0]
      rw [if_neg (by omega)]
      exact ih acc (fun r hr => h r (List.mem_cons_of_mem _ hr))

theorem bestBucketFold_spec_aux (text : String) :
    ∀ (rules : List (String × List String)) (acc : String × Nat),
      (∀ rule ∈ rules, keywordScore rule.2 text ≤
        (rules.foldl
          (fun best rule =>
            let score := keywordScore rule.2 text
            if best.2 < score then (rule.1, score) else best) acc).2) ∧
      acc.2 ≤ (rules.foldl
          (fun best rule =>
            let score := keywordScore rule.2 text
            if best.2 < score then (rule.1, score) else best) acc).2 ∧
      ((rules.foldl
          (fun best rule =>
            let score := keywordScore rule.2 text
            if best.2 < score then (rule.1, score) else best) acc) = acc ∨
        ∃ rule ∈ rules,
          (rules.foldl
            (fun best rule =>
              let score := keywordScore rule.2 text
              if best.2 < score then (rule.1, score) else best) acc) =
            (rule.1, keywordScore rule.2 text)) := by
  intro rules
  induction rules with
  | nil => intro acc; exact ⟨by simp, le_refl _, Or.inl rfl⟩
  | cons rule rest ih =>
      intro acc
      simp only [List.foldl_cons]
      by_cases hup : acc.2 < keywordScore rule.2 text
      · have ih' := ih (rule.1, keywordScore rule.2 text)
        rw [if_pos hup] at *
        refine ⟨?_, le_trans (le_of_lt hup) ih'.2.1, ?_⟩
        · intro r hr
          rcases List.mem_cons.1 hr with rfl | hr'
          · exact ih'.2.1
          · exact ih'.1 r hr'
        · rcases ih'.2.2 with heq | ⟨r, hr, heq⟩
          · exact Or.inr ⟨rule, List.mem_cons_self _ _, heq⟩
          · exact Or.inr ⟨r, List.mem_cons_of_mem _ hr, heq⟩
      · have ih' := ih acc
        rw [if_neg hup] at *
        refine ⟨?_, ih'.2.1, ?_⟩
        · intro r hr
          rcases List.mem_cons.1 hr with rfl | hr'
          · exact le_trans (by omega) ih'.2.1
          · exact ih'.1 r hr'
        · rcases ih'.2.2 with heq | ⟨r, hr, heq⟩
          · exact Or.inl heq
          · exact Or.inr ⟨r, List.mem_cons_of_mem _ hr, heq⟩

theorem homonymRules_buckets_nonempty (cn : String)
    (rules : List (String × List String))
    (h : alistGet homonymContextRules cn = some rules) :
    ∀ rule ∈ rules, ¬ pyFalsy rule.1 := by
  simp only [homonymContextRules, alistGet] at h
  by_cases h1 : ("sat" : String) = cn
  · rw [if_pos h1] at h
    rw [Option.some_inj] at h
    subst h
    decide
  · rw [if_neg h1] at h
    by_cases h2 : ("transformer" : String) = cn
    · rw [if_pos h2] at h
      rw [Option.some_inj] at h
      subst h
      decide
    · rw [if_neg h2] at h
      cases h

end BucketLemmas

section MaxLemmas

theorem confFold_ge (xs : List ExtractedEntity) :
    ∀ acc : ℚ, acc ≤ xs.foldl (fun m e => max m e.confidence) acc ∧
      ∀ e ∈ xs, e.confidence ≤ xs.foldl (fun m e => max m e.confidence) acc := by
  induction xs with
  | nil => intro acc; exact ⟨le_refl _, by simp⟩
  | cons x xs ih =>
      intro acc
      have ih' := ih (max acc x.confidence)
      refine ⟨le_trans (le_max_left _ _) ih'.1, ?_⟩
      intro e he
      rcases List.mem_cons.1 he with rfl | he'
      · exact le_trans (le_max_right acc e.confidence) ih'.1
      · exact ih'.2 e he'

theorem confFold_mem (xs : List ExtractedEntity) :
    ∀ acc : ℚ, xs.foldl (fun m e => max m e.confidence) acc = acc ∨
      ∃ e ∈ xs, xs.foldl (fun m e => max m e.confidence) acc =
        e.confidence := by
  induction xs with
  | nil => intro acc; exact Or.inl rfl
  | cons x xs ih =>
      intro acc
      rcases ih (max acc x.confidence) with heq | ⟨e, he, heq⟩
      · simp only [List.foldl_cons]
        rcases max_choice acc x.confidence with hm | hm
        · rw [heq, hm]
          exact Or.inl rfl
        · rw [heq, hm]
          exact Or.inr ⟨x, List.mem_cons_self _ _, rfl⟩
      · exact Or.inr ⟨e, List.mem_cons_of_mem _ he, heq⟩

theorem maxConfOf_spec (g : List ExtractedEntity) (hne : g ≠ []) :
    (∀ e ∈ g, e.confidence ≤ maxConfOf g) ∧
      ∃ e ∈ g, maxConfOf g = e.confidence := by
  match g with
  | [] => exact absurd rfl hne
  | x :: xs =>
      constructor
      · intro e he
        rcases List.mem_cons.1 he with rfl | he'
        · exact (confFold_ge xs e.confidence).1
        · exact (confFold_ge xs x.confidence).2 e he'
      · rcases confFold_mem xs x.confidence with heq | ⟨e, he, heq⟩
        · exact ⟨x, List.mem_cons_self _ _, heq⟩
        · exact ⟨e, List.mem_cons_of_mem _ he, heq⟩

theorem bestFold_mem (xs : List ExtractedEntity) :
    ∀ acc : ExtractedEntity,
      xs.foldl (fun best e =>
        if best.confidence < e.confidence then e else best) acc = acc ∨
      xs.foldl (fun best e =>
        if best.confidence < e.confidence then e else best) acc ∈ xs := by
  induction xs with
  | nil => intro acc; exact Or.inl rfl
  | cons x xs ih =>
      intro acc
      simp only [List.foldl_cons]
      by_cases h : acc.confidence < x.confidence
      · rw [if_pos h]
        rcases ih x with heq | hmem
        · refine Or.inr ?_
          rw [heq]
          exact List.mem_cons_self _ _
        · exact Or.inr (List.mem_cons_of_mem _ hmem)
      · rw [if_neg h]
        rcases ih acc with heq | hmem
        · exact Or.inl heq
        · exact Or.inr (List.mem_cons_of_mem _ hmem)

theorem bestFold_ge (xs : List ExtractedEntity) :
    ∀ acc : ExtractedEntity,
      acc.confidence ≤ (xs.foldl (fun best e =>
        if best.confidence < e.confidence then e else best) acc).confidence ∧
      ∀ e ∈ xs, e.confidence ≤ (xs.foldl (fun best e =>
        if best.confidence < e.confidence then e else best)
          acc).confidence := by
  induction xs with
  | nil => intro acc; exact ⟨le_refl _, by simp⟩
  | cons x xs ih =>
      intro acc
      simp only [List.foldl_cons]
      by_cases h : acc.confidence < x.confidence
      · rw [if_pos h]
        have ih' := ih x
        refine ⟨le_trans (le_of_lt h) ih'.1, ?_⟩
        intro e he
        rcases List.mem_cons.1 he with rfl | he'
        · exact ih'.1
        · exact ih'.2 e he'
      · rw [if_neg h]
        have ih' := ih acc
        refine ⟨ih'.1, ?_⟩
        intro e he
        rcases List.mem_cons.1 he with rfl | he'
        · exact le_trans (le_of_not_lt h) ih'.1
        · exact ih'.2 e he'

theorem pyMaxByConf_spec (g : List ExtractedEntity) (hne : g ≠ []) :
    pyMaxByConf g ∈ g ∧
      ∀ e ∈ g, e.confidence ≤ (pyMaxByConf g).confidence := by
  match g with
  | [] => exact absurd rfl hne
  | x :: xs =>
      constructor
      · rcases bestFold_mem xs x with heq | hmem
        · have hx : pyMaxByConf (x :: xs) = x := heq
          rw [hx]
          exact List.mem_cons_self _ _
        · exact List.mem_cons_of_mem _ hmem
      · intro e he
        rcases List.mem_cons.1 he with rfl | he'
        · exact (bestFold_ge xs e).1
        · exact (bestFold_ge xs x).2 e he'

end MaxLemmas

section AliasLemmas

theorem alistGet_foldl_set_not_mem (f : NameKey → String) :
    ∀ (ks : List NameKey) (am : List (NameKey × String)) (key : NameKey),
      key ∉ ks →
      alistGet (ks.foldl (fun am k => alistSet am k (f k)) am) key =
        alistGet am key := by
  intro ks
  induction ks with
  | nil => intro am key _; rfl
  | cons k₀ rest ih =>
      intro am key hk
      simp only [List.mem_cons] at hk
      push_neg at hk
      simp only [List.foldl_cons]
      rw [ih _ _ hk.2, alistGet_set, if_neg hk.1]

theorem alistGet_foldl_set_mem (f : NameKey → String) :
    ∀ (ks : List NameKey) (am : List (NameKey × String)) (key : NameKey),
      key ∈ ks →
      alistGet (ks.foldl (fun am k => alistSet am k (f k)) am) key =
        some (f key) := by
  intro ks
  induction ks with
  | nil => intro am key hk; cases hk
  | cons k₀ rest ih =>
      intro am key hk
      simp only [List.foldl_cons]
      by_cases hmem : key ∈ rest
      · exact ih _ _ hmem
      · rcases List.mem_cons.1 hk with rfl | hk'
        · rw [alistGet_foldl_set_not_mem f rest _ _ hmem, alistGet_set,
            if_pos rfl]
        · exact absurd hk' hmem

theorem map_fst_pair_self (keys : List NameKey) :
    (keys.map (fun k => (k, k))).map Prod.fst = keys := by
  rw [List.map_map]
  exact List.map_id keys

theorem ufFind_id (keys : List NameKey) (key : NameKey) (fuel : Nat)
    (hf : 0 < fuel) :
    ufFind (keys.map (fun k => (k, k))) key fuel =
      (key, keys.map (fun k => (k, k))) := by
  match fuel, hf with
  | fuel + 1, _ =>
      have hp : (alistGet (keys.map (fun k => (k, k))) key).getD key =
          key := by
        by_cases hk : key ∈ keys
        · rw [alistGet_self_map keys key hk]
          rfl
        · rw [alistGet_of_not_mem]
          · rfl
          · rw [map_fst_pair_self]
            exact hk
      simp [ufFind, hp]

theorem groupPairsFold_of_nodup {κ β : Type} [DecidableEq κ] :
    ∀ (ps : List (κ × β)) (acc : List (κ × List β)),
      ((acc.map Prod.fst) ++ ps.map Prod.fst).Nodup →
      groupPairsFold ps acc = acc ++ ps.map (fun p => (p.1, [p.2])) := by
  intro ps
  induction ps with
  | nil => intro acc _; simp [groupPairsFold]
  | cons p rest ih =>
      intro acc hacc
      have hnot : p.1 ∉ acc.map Prod.fst := by
        intro hmem
        exact (List.nodup_append.1 hacc).2.2 hmem (by simp)
      have step : groupPairsFold (p :: rest) acc =
          groupPairsFold rest (pyGroupAdd acc p.1 p.2) := rfl
      rw [step, pyGroupAdd_of_not_mem _ _ _ hnot, ih]
      · simp
      · simp only [List.map_append, List.map_cons, List.map_nil]
        simp only [List.map_cons] at hacc
        rw [List.append_assoc]
        simpa [List.append_assoc] using hacc

theorem buildNameStats_keys (records : List Record)
    (hnd : (records.map Record.key).Nodup) :
    (buildNameStats records).map Prod.fst = records.map Record.key := by
  unfold buildNameStats
  suffices H : ∀ acc : List (NameKey × NameStat),
      ((acc.map Prod.fst) ++ records.map Record.key).Nodup →
      (records.foldl
        (fun stats record =>
          let key := record.key
          let cur := (alistGet stats key).getD {}
          alistSet stats key
            { count := cur.count + 1,
              maxConf := max cur.maxConf record.entity.confidence })
        acc).map Prod.fst = acc.map Prod.fst ++ records.map Record.key by
    simpa using H [] (by simpa using hnd)
  clear hnd
  induction records with
  | nil => intro acc _; simp
  | cons record rest ih =>
      intro acc hacc
      have hnot : record.key ∉ acc.map Prod.fst := by
        intro hmem
        exact (List.nodup_append.1 hacc).2.2 hmem (by simp)
      simp only [List.foldl_cons]
      rw [alistSet_of_not_mem _ _ _ hnot, ih]
      · simp
      · simp only [List.map_append, List.map_cons, List.map_nil]
        simp only [List.map_cons] at hacc
        rw [List.append_assoc]
        simpa [List.append_assoc] using hacc

theorem buildAliasMap_no_pairs (eng : Engine) (nameKeys : List NameKey)
    (nameStats : List (NameKey × NameStat))
    (hne : ¬ nameKeys.isEmpty)
    (hauto : generateCandidatePairs nameKeys eng.autoMergeThreshold none
      = []) :
    buildAliasMap eng nameKeys nameStats [] =
      ((nameKeys.foldl
          (fun (acc : List (NameKey × List NameKey) ×
              List (NameKey × NameKey)) key =>
            let (root, par₁) := ufFind acc.2 key (acc.2.length + 1)
            (pyGroupAdd acc.1 root key, par₁))
          ([], nameKeys.map (fun k => (k, k)))).1.map Prod.snd).foldl
        (fun aliasMap clusterKeys =>
          clusterKeys.foldl
            (fun am key =>
              alistSet am key (selectClusterCanonical clusterKeys nameStats))
            aliasMap)
        [] := by
  unfold buildAliasMap
  rw [if_neg hne, hauto]
  rfl

theorem buildAliasMap_identity (eng : Engine) (nameKeys : List NameKey)
    (nameStats : List (NameKey × NameStat))
    (hnd : nameKeys.Nodup)
    (hauto : generateCandidatePairs nameKeys eng.autoMergeThreshold none
      = []) :
    ∀ key ∈ nameKeys,
      alistGet (buildAliasMap eng nameKeys nameStats []) key =
        some key.2.2 := by
  intro key hkey
  have hne : ¬ nameKeys.isEmpty := by
    cases nameKeys with
    | nil => cases hkey
    | cons k ks => simp
  rw [buildAliasMap_no_pairs eng nameKeys nameStats hne hauto]
  have hfold : ∀ (ks : List NameKey)
      (cl : List (NameKey × List NameKey)),
      ks.foldl
        (fun (acc : List (NameKey × List NameKey) ×
            List (NameKey × NameKey)) key =>
          let (root, par₁) := ufFind acc.2 key (acc.2.length + 1)
          (pyGroupAdd acc.1 root key, par₁))
        (cl, nameKeys.map (fun k => (k, k))) =
        (ks.foldl (fun c key => pyGroupAdd c key key) cl,
          nameKeys.map (fun k => (k, k))) := by
    intro ks
    induction ks with
    | nil => intro cl; rfl
    | cons k₀ rest ih =>
        intro cl
        simp only [List.foldl_cons]
        rw [ufFind_id nameKeys k₀ _ (by omega)]
        exact ih (pyGroupAdd cl k₀ k₀)
  have hfold1 : (nameKeys.foldl
      (fun (acc : List (NameKey × List NameKey) ×
          List (NameKey × NameKey)) key =>
        let (root, par₁) := ufFind acc.2 key (acc.2.length + 1)
        (pyGroupAdd acc.1 root key, par₁))
      ([], nameKeys.map (fun k => (k, k)))).1 =
      nameKeys.foldl (fun c key => pyGroupAdd c key key) [] := by
    rw [hfold nameKeys []]
  have hclusters :
      nameKeys.foldl (fun c key => pyGroupAdd c key key)
        ([] : List (NameKey × List NameKey)) =
        nameKeys.map (fun k => (k, [k])) := by
    have hfold2 : nameKeys.foldl (fun c key => pyGroupAdd c key key)
        ([] : List (NameKey × List NameKey)) =
        groupPairsFold (nameKeys.map (fun k => (k, k))) [] := by
      unfold groupPairsFold
      rw [List.foldl_map]
    rw [hfold2, groupPairsFold_of_nodup]
    · simp [List.map_map]
    · show (List.map Prod.fst
        (List.map (fun k => (k, k)) nameKeys)).Nodup
      rw [map_fst_pair_self]
      exact hnd
  rw [hfold1, hclusters]
  have hfinal : ∀ (ks : List NameKey) (am : List (NameKey × String)),
      ((ks.map (fun k => (k, [k]))).map Prod.snd).foldl
        (fun aliasMap clusterKeys =>
          clusterKeys.foldl
            (fun am key =>
              alistSet am key (selectClusterCanonical clusterKeys nameStats))
            aliasMap)
        am =
      ks.foldl
        (fun am k => alistSet am k (selectClusterCanonical [k] nameStats))
        am := by
    intro ks
    induction ks with
    | nil => intro am; rfl
    | cons k rest ih =>
        intro am
        simp only [List.map_cons, List.foldl_cons]
        exact ih _
  rw [hfinal nameKeys []]
  exact alistGet_foldl_set_mem
    (fun k => selectClusterCanonical [k] nameStats) nameKeys [] key hkey

end AliasLemmas

section ResolveLemmas

theorem resolveWithAliasMap_length_of_identity (records : List Record)
    (aliasMap : List (NameKey × String))
    (hid : ∀ record ∈ records,
      alistGet aliasMap record.key = some record.canonicalName)
    (hnd : (records.map Record.key).Nodup) :
    (resolveWithAliasMap records aliasMap).length = records.length := by
  unfold resolveWithAliasMap
  rw [List.length_map]
  have hcong : records.foldl
      (fun (g : List (NameKey × List ExtractedEntity)) record =>
        let canonicalName := (alistGet aliasMap record.key).getD
          record.canonicalName
        let mergedKey : NameKey :=
          (record.entityType, record.contextBucket, canonicalName)
        pyGroupAdd g mergedKey record.entity)
      [] =
      records.foldl
        (fun (g : List (NameKey × List ExtractedEntity)) record =>
          pyGroupAdd g record.key record.entity)
        [] := by
    apply List.foldl_ext
    intro g record hrec
    rw [hid record hrec]
    rfl
  rw [hcong]
  have hfold : records.foldl
      (fun (g : List (NameKey × List ExtractedEntity)) record =>
        pyGroupAdd g record.key record.entity) [] =
      groupPairsFold (records.map (fun r => (r.key, r.entity))) [] := by
    unfold groupPairsFold
    rw [List.foldl_map]
  rw [hfold, groupPairsFold_length]
  · rw [List.length_map]
  · have hmm : (records.map (fun r => (r.key, r.entity))).map Prod.fst =
        records.map Record.key := by
      rw [List.map_map]
      rfl
    rw [hmm]
    exact hnd

theorem resolveEntities_shape (eng : Engine) (entities : List ExtractedEntity)
    (hemp : ¬ entities.isEmpty = true) :
    (resolveEntities eng entities).1.2.rawEntities = entities.length ∧
    (resolveEntities eng entities).1.2.resolvedEntities =
      (resolveWithAliasMap (buildRecords eng entities).1
        (buildAliasMap eng
          ((buildNameStats (buildRecords eng entities).1).map Prod.fst)
          (buildNameStats (buildRecords eng entities).1) [])).length ∧
    (resolveEntities eng entities).1.2.mergedEntities =
      entities.length -
        (resolveWithAliasMap (buildRecords eng entities).1
          (buildAliasMap eng
            ((buildNameStats (buildRecords eng entities).1).map Prod.fst)
            (buildNameStats (buildRecords eng entities).1) [])).length := by
  unfold resolveEntities
  rw [if_neg hemp]
  exact ⟨rfl, rfl, rfl⟩

theorem resolveEntities_resolved (eng : Engine)
    (entities : List ExtractedEntity) (hemp : ¬ entities.isEmpty = true) :
    (resolveEntities eng entities).1.1 =
      resolveWithAliasMap (buildRecords eng entities).1
        (buildAliasMap eng
          ((buildNameStats (buildRecords eng entities).1).map Prod.fst)
          (buildNameStats (buildRecords eng entities).1) []) := by
  unfold resolveEntities
  rw [if_neg hemp]

theorem resolveEntities_llm_fields (eng : Engine)
    (entities : List ExtractedEntity) :
    (resolveEntities eng entities).1.2.llmPairsReviewed = 0 ∧
    (resolveEntities eng entities).1.2.llmPairsConfirmed = 0 ∧
    (resolveEntities eng entities).1.2.potentialFalseMergeSamples = [] := by
  by_cases hemp : entities.isEmpty = true
  · unfold resolveEntities
    rw [if_pos hemp]
    exact ⟨rfl, rfl, rfl⟩
  · unfold resolveEntities
    rw [if_neg hemp]
    exact ⟨rfl, rfl, rfl⟩

theorem resolveEntitiesAsync_eq (eng : Engine)
    (entities : List ExtractedEntity) (u : Bool)
    (hemp : ¬ entities.isEmpty = true) :
    resolveEntitiesAsync eng entities u =
      resolveAsyncFinish eng entities (buildRecords eng entities).1
        (buildRecords eng entities).2
        (if u = true ∧ eng.llm.isSome = true ∧
            2 ≤ ((buildNameStats
              (buildRecords eng entities).1).map Prod.fst).length
          then
            (confirmCandidatePairsWithLLM eng
              ((generateCandidatePairs
                ((buildNameStats
                  (buildRecords eng entities).1).map Prod.fst)
                eng.llmReviewThreshold (some eng.maxLlmPairChecks)).filter
                  (fun p => decide (p.2.2 < eng.autoMergeThreshold))),
             (generateCandidatePairs
               ((buildNameStats
                 (buildRecords eng entities).1).map Prod.fst)
               eng.llmReviewThreshold (some eng.maxLlmPairChecks)).filter
                 (fun p => decide (p.2.2 < eng.autoMergeThreshold)))
          else ([], [])) := by
  unfold resolveEntitiesAsync
  rw [if_neg hemp]
  rfl

theorem resolveAsyncFinish_nil_eq_sync (eng : Engine)
    (entities : List ExtractedEntity) (hemp : ¬ entities.isEmpty = true) :
    resolveAsyncFinish eng entities (buildRecords eng entities).1
      (buildRecords eng entities).2 ([], []) =
      resolveEntities eng entities := by
  unfold resolveAsyncFinish resolveEntities
  rw [if_neg hemp]
  rfl

end ResolveLemmas

section JudgeLemmas

theorem mem_pySetAdd {α : Type} [DecidableEq α] (s : List α) (x y : α)
    (h : y ∈ pySetAdd s x) : y ∈ s ∨ y = x := by
  unfold pySetAdd at h
  by_cases hx : x ∈ s
  · rw [if_pos hx] at h
    exact Or.inl h
  · rw [if_neg hx] at h
    rcases List.mem_append.1 h with h | h
    · exact Or.inl h
    · exact Or.inr (List.mem_singleton.1 h)

theorem alistGet_some_mem {α β : Type} [DecidableEq α] (m : List (α × β))
    (k : α) (v : β) (h : alistGet m k = some v) : (k, v) ∈ m := by
  induction m with
  | nil => exact Option.noConfusion h
  | cons kv rest ih =>
      obtain ⟨k₀, v₀⟩ := kv
      by_cases h₀ : k₀ = k
      · simp only [alistGet, if_pos h₀] at h
        obtain rfl : v₀ = v := Option.some.inj h
        subst h₀
        exact List.mem_cons_self _ _
      · simp only [alistGet, if_neg h₀] at h
        exact List.mem_cons_of_mem _ (ih h)

theorem snd_mem_of_mem_enumFrom {α : Type} :
    ∀ (l : List α) (n : Nat) (ip : Nat × α),
      ip ∈ List.enumFrom n l → ip.2 ∈ l := by
  intro l
  induction l with
  | nil => intro n ip h; cases h
  | cons a t ih =>
      intro n ip h
      rcases List.mem_cons.1 h with h | h
      · subst h
        exact List.mem_cons_self _ _
      · exact List.mem_cons_of_mem _ (ih _ _ h)

theorem snd_mem_of_mem_enum {α : Type} (l : List α) (ip : Nat × α)
    (h : ip ∈ List.enum l) : ip.2 ∈ l :=
  snd_mem_of_mem_enumFrom l 0 ip h

theorem mem_decisionStep (m : List (String × (NameKey × NameKey)))
    (c : List (NameKey × NameKey)) (d : JudgeDecision)
    (lr : NameKey × NameKey) (h : lr ∈ decisionStep m c d) :
    lr ∈ c ∨ ∃ kv ∈ m, lr = kv.2 := by
  cases d with
  | invalid => exact Or.inl h
  | dec id same =>
      cases same with
      | false => exact Or.inl h
      | true =>
          have h' : lr ∈ (match alistGet m id with
            | some pair => pySetAdd c pair
            | none => c) := h
          cases halist : alistGet m id with
          | none =>
              rw [halist] at h'
              exact Or.inl h'
          | some pair =>
              rw [halist] at h'
              rcases mem_pySetAdd c pair lr h' with h₂ | h₂
              · exact Or.inl h₂
              · exact Or.inr
                  ⟨(id, pair), alistGet_some_mem m id pair halist, h₂⟩

theorem decisions_fold_mem (m : List (String × (NameKey × NameKey))) :
    ∀ (ds : List JudgeDecision) (c : List (NameKey × NameKey))
      (lr : NameKey × NameKey),
      lr ∈ ds.foldl (decisionStep m) c → lr ∈ c ∨ ∃ kv ∈ m, lr = kv.2 := by
  intro ds
  induction ds with
  | nil => intro c lr h; exact Or.inl h
  | cons d rest ih =>
      intro c lr h
      rw [List.foldl_cons] at h
      rcases ih _ lr h with h₁ | h₁
      · exact mem_decisionStep m c d lr h₁
      · exact Or.inr h₁

theorem mem_confirmStep (judge : Judge) (bs : Nat)
    (rp : List CandidatePair) (bi : Nat)
    (c : List (NameKey × NameKey)) (lr : NameKey × NameKey)
    (h : lr ∈ confirmStep judge bs rp c bi) :
    lr ∈ c ∨ (∃ ds, judge bi = Except.ok ds ∧ ds ≠ []) ∧
      ∃ p ∈ (rp.drop (bi * bs)).take bs, lr = (p.1, p.2.1) := by
  unfold confirmStep at h
  by_cases hbe : ((rp.drop (bi * bs)).take bs).isEmpty = true
  · rw [if_pos hbe] at h
    exact Or.inl h
  · rw [if_neg hbe] at h
    cases hj : judge bi with
    | error e =>
        simp only [hj] at h
        exact Or.inl h
    | ok ds =>
        simp only [hj] at h
        cases ds with
        | nil => exact Or.inl h
        | cons d rest =>
            rcases decisions_fold_mem _ (d :: rest) c lr h with h₁ | h₁
            · exact Or.inl h₁
            · obtain ⟨kv, hkv, heq⟩ := h₁
              obtain ⟨ip, hip, hkveq⟩ := List.mem_map.1 hkv
              subst heq
              subst hkveq
              exact Or.inr
                ⟨⟨d :: rest, rfl, List.cons_ne_nil d rest⟩,
                  ip.2, snd_mem_of_mem_enum _ _ hip, rfl⟩

theorem confirm_empty_input (eng : Engine) (judge : Judge)
    (hllm : eng.llm = some judge) (rp : List CandidatePair)
    (h : rp.isEmpty = true) :
    confirmCandidatePairsWithLLM eng rp = [] := by
  unfold confirmCandidatePairsWithLLM
  simp only [hllm]
  rw [if_pos h]

theorem confirm_bs_zero (eng : Engine) (judge : Judge)
    (hllm : eng.llm = some judge) (hbs : eng.llmBatchSize = 0)
    (rp : List CandidatePair) :
    confirmCandidatePairsWithLLM eng rp = [] := by
  unfold confirmCandidatePairsWithLLM
  simp only [hllm]
  by_cases h : rp.isEmpty = true
  · rw [if_pos h]
  · rw [if_neg h, if_pos hbs]

theorem confirm_eq_fold (eng : Engine) (judge : Judge)
    (hllm : eng.llm = some judge) (rp : List CandidatePair)
    (hne : ¬ rp.isEmpty = true) (hbs : ¬ eng.llmBatchSize = 0) :
    confirmCandidatePairsWithLLM eng rp =
      (List.range ((rp.length + eng.llmBatchSize - 1) /
          eng.llmBatchSize)).foldl
        (confirmStep judge eng.llmBatchSize rp) [] := by
  unfold confirmCandidatePairsWithLLM
  simp only [hllm]
  rw [if_neg hne, if_neg hbs]
  rfl

theorem confirm_fold_mem (judge : Judge) (bs : Nat)
    (rp : List CandidatePair) :
    ∀ (bis : List Nat) (c : List (NameKey × NameKey))
      (lr : NameKey × NameKey),
      lr ∈ bis.foldl (confirmStep judge bs rp) c →
      lr ∈ c ∨ ∃ bj, (∃ ds, judge bj = Except.ok ds ∧ ds ≠ []) ∧
        ∃ p ∈ (rp.drop (bj * bs)).take bs, lr = (p.1, p.2.1) := by
  intro bis
  induction bis with
  | nil => intro c lr h; exact Or.inl h
  | cons b rest ih =>
      intro c lr h
      rw [List.foldl_cons] at h
      rcases ih _ lr h with h₁ | h₁
      · rcases mem_confirmStep judge bs rp b c lr h₁ with h₂ | h₂
        · exact Or.inl h₂
        · exact Or.inr ⟨b, h₂⟩
      · exact Or.inr h₁

theorem confirm_mem_structure (eng : Engine) (judge : Judge)
    (hllm : eng.llm = some judge) (rp : List CandidatePair)
    (lr : NameKey × NameKey)
    (h : lr ∈ confirmCandidatePairsWithLLM eng rp) :
    ∃ bj, (∃ ds, judge bj = Except.ok ds ∧ ds ≠ []) ∧
      ∃ p ∈ (rp.drop (bj * eng.llmBatchSize)).take eng.llmBatchSize,
        lr = (p.1, p.2.1) := by
  by_cases hne : rp.isEmpty = true
  · rw [confirm_empty_input eng judge hllm rp hne] at h
    cases h
  · by_cases hbs : eng.llmBatchSize = 0
    · rw [confirm_bs_zero eng judge hllm hbs rp] at h
      cases h
    · rw [confirm_eq_fold eng judge hllm rp hne hbs] at h
      rcases confirm_fold_mem judge eng.llmBatchSize rp _ _ lr h with
        h₁ | h₁
      · cases h₁
      · exact h₁

theorem slice_proj_ne_of_lt (rp : List CandidatePair) (bs : Nat)
    (hnd : (rp.map (fun p => (p.1, p.2.1))).Nodup)
    (i j : Nat) (hij : i < j) (p q : CandidatePair)
    (hp : p ∈ (rp.drop (i * bs)).take bs)
    (hq : q ∈ (rp.drop (j * bs)).take bs) :
    (p.1, p.2.1) ≠ (q.1, q.2.1) := by
  have hp' : p ∈ rp.take (i * bs + bs) := by
    have hdt : (rp.take (i * bs + bs)).drop (i * bs) =
        (rp.drop (i * bs)).take bs := by
      rw [List.drop_take]
      congr 1
      omega
    have hmem : p ∈ (rp.take (i * bs + bs)).drop (i * bs) := by
      rw [hdt]
      exact hp
    exact List.drop_subset _ _ hmem
  have hq' : q ∈ rp.drop (i * bs + bs) := by
    have h1 : q ∈ rp.drop (j * bs) := List.take_subset _ _ hq
    have hle : (i + 1) * bs ≤ j * bs := Nat.mul_le_mul_right bs hij
    have hle' : i * bs + bs ≤ j * bs := by
      rw [Nat.succ_mul] at hle
      exact hle
    have h2 : rp.drop (j * bs) =
        (rp.drop (i * bs + bs)).drop (j * bs - (i * bs + bs)) := by
      rw [List.drop_drop]
      congr 1
      omega
    rw [h2] at h1
    exact List.drop_subset _ _ h1
  intro heq
  have hsplit : rp.map (fun p => (p.1, p.2.1)) =
      (rp.take (i * bs + bs)).map (fun p => (p.1, p.2.1)) ++
      (rp.drop (i * bs + bs)).map (fun p => (p.1, p.2.1)) := by
    rw [← List.map_append, List.take_append_drop]
  rw [hsplit] at hnd
  have hdisj := List.disjoint_of_nodup_append hnd
  have h2m : (q.1, q.2.1) ∈
      (rp.drop (i * bs + bs)).map (fun p => (p.1, p.2.1)) :=
    List.mem_map_of_mem _ hq'
  rw [← heq] at h2m
  exact hdisj (List.mem_map_of_mem _ hp') h2m

theorem slices_disjoint_proj (rp : List CandidatePair) (bs : Nat)
    (hnd : (rp.map (fun p => (p.1, p.2.1))).Nodup)
    (i j : Nat) (hij : i ≠ j) (p q : CandidatePair)
    (hp : p ∈ (rp.drop (i * bs)).take bs)
    (hq : q ∈ (rp.drop (j * bs)).take bs) :
    (p.1, p.2.1) ≠ (q.1, q.2.1) := by
  rcases lt_or_gt_of_ne hij with h | h
  · exact slice_proj_ne_of_lt rp bs hnd i j h p q hp hq
  · exact (slice_proj_ne_of_lt rp bs hnd j i h q p hq hp).symm

theorem confirmStep_noop (judge : Judge) (bs : Nat)
    (rp : List CandidatePair) (bi : Nat)
    (hj : judge bi = Except.error () ∨ judge bi = Except.ok [])
    (c : List (NameKey × NameKey)) :
    confirmStep judge bs rp c bi = c := by
  unfold confirmStep
  by_cases hbe : ((rp.drop (bi * bs)).take bs).isEmpty = true
  · rw [if_pos hbe]
  · rw [if_neg hbe]
    rcases hj with hj | hj
    · simp only [hj]
    · simp only [hj]
      rfl

theorem confirm_all_fail (eng : Engine) (judge : Judge)
    (hllm : eng.llm = some judge)
    (herr : ∀ n, judge n = Except.error () ∨ judge n = Except.ok [])
    (rp : List CandidatePair) :
    confirmCandidatePairsWithLLM eng rp = [] := by
  by_cases hne : rp.isEmpty = true
  · exact confirm_empty_input eng judge hllm rp hne
  · by_cases hbs : eng.llmBatchSize = 0
    · exact confirm_bs_zero eng judge hllm hbs rp
    · rw [confirm_eq_fold eng judge hllm rp hne hbs]
      have hgen : ∀ (bis : List Nat) (c : List (NameKey × NameKey)),
          bis.foldl (confirmStep judge eng.llmBatchSize rp) c = c := by
        intro bis
        induction bis with
        | nil => intro c; rfl
        | cons b rest ih =>
            intro c
            rw [List.foldl_cons,
              confirmStep_noop judge eng.llmBatchSize rp b (herr b)]
            exact ih c
      exact hgen _ []

theorem async_no_confirm (eng : Engine) (entities : List ExtractedEntity)
    (u : Bool)
    (hconf : ∀ pairs, confirmCandidatePairsWithLLM eng pairs = []) :
    (resolveEntitiesAsync eng entities u).1.1 =
      (resolveEntities eng entities).1.1 ∧
    (resolveEntitiesAsync eng entities u).1.2.llmPairsConfirmed = 0 := by
  by_cases hemp : entities.isEmpty = true
  · have he : resolveEntitiesAsync eng entities u =
        resolveEntities eng entities := by
      unfold resolveEntitiesAsync
      rw [if_pos hemp]
    rw [he]
    exact ⟨rfl, (resolveEntities_llm_fields eng entities).2.1⟩
  · rw [resolveEntitiesAsync_eq eng entities u hemp]
    by_cases hcond : u = true ∧ eng.llm.isSome = true ∧
        2 ≤ ((buildNameStats
          (buildRecords eng entities).1).map Prod.fst).length
    · rw [if_pos hcond, hconf]
      constructor
      · rw [resolveEntities_resolved eng entities hemp]
        rfl
      · rfl
    · rw [if_neg hcond, resolveAsyncFinish_nil_eq_sync eng entities hemp]
      exact ⟨rfl, (resolveEntities_llm_fields eng entities).2.1⟩

end JudgeLemmas

/-! ## Claim theorems -/

/-- C2: for every set of NameKeys and every `min_similarity`/`max_pairs`
configuration, every candidate pair produced by `_generate_candidate_pairs`
has identical entity type and identical context bucket in its two keys; no
pair is generated across blocks. -/
theorem blocking_correctness (keys : List NameKey) (minSim : ℚ)
    (maxPairs : Option Nat) :
    ∀ c ∈ generateCandidatePairs keys minSim maxPairs,
      c.1.1 = c.2.1.1 ∧ c.1.2.1 = c.2.1.2.1 := by
  intro c hc
  have h := mem_generateCandidatePairs keys minSim maxPairs c hc
  exact ⟨h.2.2.1, h.2.2.2.1⟩

/-- Witness for C2 at a concrete key set that does produce a pair. -/
theorem blocking_correctness_witness :
    (("t", "b", "ai"), ("t", "b", "ai x"), mkRat 83 120) ∈
      generateCandidatePairs [("t", "b", "ai"), ("t", "b", "ai x")]
        (mkRat 1 2) none ∧
    ((("t", "b", "ai"), ("t", "b", "ai x"), mkRat 83 120) :
        CandidatePair).1.1 =
      ((("t", "b", "ai"), ("t", "b", "ai x"), mkRat 83 120) :
        CandidatePair).2.1.1 := by
  have hmem : (("t", "b", "ai"), ("t", "b", "ai x"), mkRat 83 120) ∈
      generateCandidatePairs [("t", "b", "ai"), ("t", "b", "ai x")]
        (mkRat 1 2) none := by decide
  exact ⟨hmem,
    (blocking_correctness [("t", "b", "ai"), ("t", "b", "ai x")]
      (mkRat 1 2) none _ hmem).1⟩

/-- The entity that separates the code's context from the claim's: the
property leaves are `["test", 5, "score"]`, so the code's context is
`"sat   test 5 score"` (no keyword matches, bucket "generic") while the
claim's string-leaves-only context is `"sat   test score"` (the education
keyword "test score" matches). -/
def satEntity : ExtractedEntity :=
  { entityType := "Concept", name := "sat",
    properties := [("notes", .vlist (PropValList.ofList
      [.vstr "test", .vint 5, .vstr "score"]))] }

/-- C5 counterexample: the claim computes the bucket from the string leaves
of the properties only, but `_iter_property_strings` also stringifies
numeric and boolean leaves into the context.  On `satEntity` the code
assigns "generic" while the claim's procedure assigns "education". -/
theorem context_bucket_claim_counterexample :
    inferContextBucket "sat" satEntity = some "generic" ∧
    claimInferContextBucket "sat" satEntity = some "education" ∧
    recordBucket "sat" satEntity = "generic" := by decide

/-- C5 amended: the context bucket assigned while building records is, for
canonical names with a homonym rule, the rule bucket whose keyword list
scores highest against the code's context text — the concatenated
lower-cased name, definition, description and all property leaves, numeric
and boolean leaves stringified (not only string leaves, as the claim words
it) — with "generic" when no keyword matches, and the fixed "__default__"
bucket when the canonical name has no registered rule. -/
theorem context_bucket_assignment (canonicalName : String)
    (e : ExtractedEntity) :
    (alistGet homonymContextRules canonicalName = none →
      recordBucket canonicalName e = "__default__") ∧
    (∀ rules, alistGet homonymContextRules canonicalName = some rules →
      ((∀ rule ∈ rules, keywordScore rule.2 (buildContextText e) = 0) →
        recordBucket canonicalName e = "generic") ∧
      ((∃ rule ∈ rules, 0 < keywordScore rule.2 (buildContextText e)) →
        ∃ rule ∈ rules, recordBucket canonicalName e = rule.1 ∧
          ∀ rule' ∈ rules,
            keywordScore rule'.2 (buildContextText e) ≤
              keywordScore rule.2 (buildContextText e))) := by
  constructor
  · intro h
    simp [recordBucket, inferContextBucket, h]
  · intro rules hr
    have spec :
        (∀ rule ∈ rules, keywordScore rule.2 (buildContextText e) ≤
          (bestBucketFold (buildContextText e) rules).2) ∧
        (("generic", 0) : String × Nat).2 ≤
          (bestBucketFold (buildContextText e) rules).2 ∧
        (bestBucketFold (buildContextText e) rules = ("generic", 0) ∨
          ∃ rule ∈ rules, bestBucketFold (buildContextText e) rules =
            (rule.1, keywordScore rule.2 (buildContextText e))) :=
      bestBucketFold_spec_aux (buildContextText e) rules ("generic", 0)
    constructor
    · intro hz
      have hfold : bestBucketFold (buildContextText e) rules =
          ("generic", 0) :=
        bestBucketFold_zero_aux (buildContextText e) rules ("generic", 0) hz
      simp only [recordBucket, inferContextBucket, hr, hfold]
      decide
    · rintro ⟨rule₀, hr₀, hpos⟩
      have hres2 : 0 < (bestBucketFold (buildContextText e) rules).2 :=
        lt_of_lt_of_le hpos (spec.1 rule₀ hr₀)
      rcases spec.2.2 with heq | ⟨rule, hrule, heq⟩
      · rw [heq] at hres2
        exact absurd hres2 (by omega)
      · refine ⟨rule, hrule, ?_, ?_⟩
        · have hnb := homonymRules_buckets_nonempty canonicalName rules hr
            rule hrule
          simp only [recordBucket, inferContextBucket, hr, heq]
          simp [hnb]
        · intro rule' hrule'
          have hle := spec.1 rule' hrule'
          rw [heq] at hle
          exact hle

/-- Witness for C5 at two concrete inputs: a canonical name without a rule
gets the default bucket, and a rule name with no matching keywords gets the
generic bucket. -/
theorem context_bucket_assignment_witness :
    recordBucket "ml" { entityType := "Concept", name := "ml" } =
        "__default__" ∧
    recordBucket "sat" { entityType := "Concept", name := "sat" } =
        "generic" := by
  constructor
  · exact (context_bucket_assignment "ml"
      { entityType := "Concept", name := "ml" }).1 (by decide)
  · exact ((context_bucket_assignment "sat"
      { entityType := "Concept", name := "sat" }).2
        (homonymContextRules.headD ("", [])).2 (by decide)).1 (by decide)

/-- C7: cluster canonical selection and merged-entity construction.  The
selected canonical name of every nonempty cluster is the name of a member key
whose `(support count, max confidence, name length)` tuple is maximal; and
every entity emitted by `_resolve_with_alias_map` is built from the group of
exactly those record entities whose aliased merged key equals some key `k`
(its cluster), is that group's `buildResolvedEntity`, carries the cluster's
maximum confidence, and takes its entity type, definition and description
from `pyMaxByConf` of the cluster — the first cluster member attaining the
maximal confidence, i.e. Python's `max(group, key=lambda e:
e.confidence)`. -/
theorem cluster_canonical_and_merge :
    (∀ (clusterKeys : List NameKey)
        (nameStats : List (NameKey × NameStat)), clusterKeys ≠ [] →
      ∃ k ∈ clusterKeys,
        selectClusterCanonical clusterKeys nameStats = k.2.2 ∧
        ∀ k' ∈ clusterKeys,
          rankLe (keyRank nameStats k') (keyRank nameStats k)) ∧
    (∀ (records : List Record) (aliasMap : List (NameKey × String))
        (r : ExtractedEntity), r ∈ resolveWithAliasMap records aliasMap →
      ∃ k : NameKey, ∃ g : List ExtractedEntity,
        g = ((records.map (fun record =>
            ((record.entityType, record.contextBucket,
              (alistGet aliasMap record.key).getD record.canonicalName),
             record.entity))).filter (fun p => p.1 = k)).map Prod.snd ∧
        g ≠ [] ∧
        r = buildResolvedEntity k g ∧
        r.confidence = maxConfOf g ∧
        (∀ e ∈ g, e.confidence ≤ r.confidence) ∧
        (∃ e ∈ g, r.confidence = e.confidence) ∧
        pyMaxByConf g ∈ g ∧
        (∀ e ∈ g, e.confidence ≤ (pyMaxByConf g).confidence) ∧
        r.entityType = (pyMaxByConf g).entityType ∧
        r.definition = (pyMaxByConf g).definition ∧
        r.description = (pyMaxByConf g).description) := by
  constructor
  · intro clusterKeys nameStats hne
    have hbest := headD_pySorted_best
      (fun a b => rankLe (keyRank nameStats b) (keyRank nameStats a))
      (fun a b c h1 h2 => rankLe_trans h2 h1)
      (fun a b => rankLe_total (keyRank nameStats b) (keyRank nameStats a))
      clusterKeys hne ("", "", "")
    exact ⟨_, hbest.1, rfl, hbest.2⟩
  · intro records aliasMap r hr
    have hgrp : resolveWithAliasMap records aliasMap =
        (groupPairsFold (records.map (fun record =>
          ((record.entityType, record.contextBucket,
            (alistGet aliasMap record.key).getD record.canonicalName),
           record.entity))) []).map
          (fun kg => buildResolvedEntity kg.1 kg.2) := by
      unfold resolveWithAliasMap groupPairsFold
      rw [List.foldl_map]
    rw [hgrp, List.mem_map] at hr
    obtain ⟨⟨mk, g⟩, hmem, hre⟩ := hr
    rw [groupPairsFold_mem_iff] at hmem
    obtain ⟨hgeq, hgne⟩ := hmem
    have hconf : r.confidence = maxConfOf g := by
      rw [← hre]
      rfl
    refine ⟨mk, g, hgeq, hgne, hre.symm, hconf, ?_, ?_,
      (pyMaxByConf_spec g hgne).1, (pyMaxByConf_spec g hgne).2,
      ?_, ?_, ?_⟩
    · intro e he
      rw [hconf]
      exact (maxConfOf_spec g hgne).1 e he
    · rw [hconf]
      exact (maxConfOf_spec g hgne).2
    · rw [← hre]
      rfl
    · rw [← hre]
      rfl
    · rw [← hre]
      rfl

/-- Witness for C7: the singleton cluster selects its own name with a maximal
rank tuple. -/
theorem cluster_canonical_and_merge_witness :
    ∃ k ∈ ([("Concept", "__default__", "ml")] : List NameKey),
      selectClusterCanonical [("Concept", "__default__", "ml")] [] = k.2.2 ∧
      ∀ k' ∈ ([("Concept", "__default__", "ml")] : List NameKey),
        rankLe (keyRank [] k') (keyRank [] k) :=
  cluster_canonical_and_merge.1 [("Concept", "__default__", "ml")] []
    (by decide)

/-- C1 counterexample: `_similarity_score` is not symmetric, because
`difflib.SequenceMatcher.ratio` is order dependent; on the concrete pair
("tide", "diet") the two orientations give 11/80 and 11/40. -/
theorem similarity_symmetry_counterexample :
    similarityScore "tide" "diet" ≠ similarityScore "diet" "tide" := by decide

/-- C1 amended: the similarity score is symmetric for every pair of strings
on which the underlying `SequenceMatcher` character ratio is itself symmetric
(the token-Jaccard term and the abbreviation bonus are always symmetric). -/
theorem similarity_symmetric_of_ratio_symmetric (a b : String)
    (h : smRatio a b = smRatio b a) :
    similarityScore a b = similarityScore b a := by
  by_cases hab : a = b
  · subst hab
    rfl
  · have hba : ¬ b = a := fun hh => hab hh.symm
    simp only [similarityScore, if_neg hab, if_neg hba]
    by_cases hta : tokenize a = ∅
    · simp [hta]
    · by_cases htb : tokenize b = ∅
      · simp [htb]
      · rw [if_neg (show ¬ (tokenize a = ∅ ∨ tokenize b = ∅) by
          simp [hta, htb])]
        rw [if_neg (show ¬ (tokenize b = ∅ ∨ tokenize a = ∅) by
          simp [hta, htb])]
        rw [Finset.inter_comm (tokenize a) (tokenize b),
          Finset.union_comm (tokenize a) (tokenize b), h]
        refine if_congr ?_ rfl rfl
        constructor <;> rintro ⟨h1, h2, h3⟩ <;> exact ⟨h2, h1, h3.symm⟩

/-- Witness for the amended C1 at a concrete ratio-symmetric pair. -/
theorem similarity_symmetric_witness :
    similarityScore "ai" "ml" = similarityScore "ml" "ai" :=
  similarity_symmetric_of_ratio_symmetric "ai" "ml" (by decide)

/-- Claim-side similarity formula of C6, exactly as the claim words it:
`0.55 * edit_similarity + 0.45 * token_jaccard` (1.0 for identical strings),
with a +0.10 bonus capped at 1.0 when one name's alphanumeric-only form is a
prefix of the other's.  Unlike the source's `_similarity_score`, this has no
zero case for names without whitespace tokens and no nonemptiness condition
on the bonus keys; the counterexample below exploits exactly that gap. -/
def claimSimilarityScore (left right : String) : ℚ :=
  if left = right then 1
  else
    let jaccard : ℚ :=
      mkRat ((tokenize left ∩ tokenize right).card)
        ((tokenize left ∪ tokenize right).card)
    let score := qAdd (qMul (mkRat 55 100) (smRatio left right))
      (qMul (mkRat 45 100) jaccard)
    if (normalizeAcronymKey left).data.isPrefixOf
          (normalizeAcronymKey right).data ∨
        (normalizeAcronymKey right).data.isPrefixOf
          (normalizeAcronymKey left).data then
      min 1 (qAdd score (mkRat 1 10))
    else score

/-- The C6 postcondition as stated, instantiated at one generator
configuration: block-local pairs only, the 20-character length skip, scores
given by the claimed formula and meeting the threshold, completeness for the
untruncated generator, descending order, and truncation. -/
def claimC6At (keys : List NameKey) (minSim : ℚ) (maxPairs : Option Nat) :
    Prop :=
  (∀ c ∈ generateCandidatePairs keys minSim maxPairs,
      c.1.1 = c.2.1.1 ∧ c.1.2.1 = c.2.1.2.1 ∧
      (c.1.2.2.length : ℤ) - c.2.1.2.2.length ≤ 20 ∧
      (c.2.1.2.2.length : ℤ) - c.1.2.2.length ≤ 20 ∧
      c.2.2 = claimSimilarityScore c.1.2.2 c.2.1.2.2 ∧ minSim ≤ c.2.2) ∧
  (maxPairs = none → ∀ l ∈ keys, ∀ r ∈ keys,
      l.1 = r.1 → l.2.1 = r.2.1 →
      strLtCore l.2.2.data r.2.2.data = true →
      (l.2.2.length : ℤ) - r.2.2.length ≤ 20 →
      (r.2.2.length : ℤ) - l.2.2.length ≤ 20 →
      minSim ≤ claimSimilarityScore l.2.2 r.2.2 →
      (l, r, claimSimilarityScore l.2.2 r.2.2) ∈
        generateCandidatePairs keys minSim maxPairs) ∧
  (generateCandidatePairs keys minSim maxPairs).Pairwise
    (fun c c' => c'.2.2 ≤ c.2.2) ∧
  (∀ m, maxPairs = some m →
    generateCandidatePairs keys minSim maxPairs =
      (generateCandidatePairs keys minSim none).take m)

/-- C6 counterexample: on the key set `{("t","b"," "), ("t","b"," y")}` with
threshold 3/10, the claimed formula scores the (whitespace-name) pair 7/15 and
demands it be emitted, but `_similarity_score` returns 0.0 for a name with no
whitespace tokens, so the generator emits nothing. -/
theorem candidate_generator_claim_counterexample :
    ¬ claimC6At [("t", "b", " "), ("t", "b", " y")] (mkRat 3 10) none := by
  intro h
  have hmem := h.2.1 rfl ("t", "b", " ") (by decide) ("t", "b", " y")
    (by decide) rfl rfl (by decide) (by decide) (by decide) (by decide)
  have hout : generateCandidatePairs [("t", "b", " "), ("t", "b", " y")]
      (mkRat 3 10) none = [] := by decide
  rw [hout] at hmem
  cases hmem

/-- The source similarity agrees with the claim's formula whenever both names
have at least one whitespace token and a nonempty alphanumeric key. -/
theorem similarityScore_eq_claim (a b : String)
    (hta : tokenize a ≠ ∅) (htb : tokenize b ≠ ∅)
    (hka : ¬ pyFalsy (normalizeAcronymKey a))
    (hkb : ¬ pyFalsy (normalizeAcronymKey b)) :
    similarityScore a b = claimSimilarityScore a b := by
  by_cases hab : a = b
  · subst hab
    simp [similarityScore, claimSimilarityScore]
  · simp only [similarityScore, claimSimilarityScore, if_neg hab]
    rw [if_neg (show ¬ (tokenize a = ∅ ∨ tokenize b = ∅) by
      simp [hta, htb])]
    refine if_congr ?_ rfl rfl
    constructor
    · rintro ⟨_, _, h3⟩
      exact h3
    · intro h3
      exact ⟨hka, hkb, h3⟩

/-- C6 amended: the generator's postcondition holds with the source's score,
which matches the claimed formula whenever both canonical names have a
whitespace token and a nonempty alphanumeric key (names without tokens score
0.0 and names without alphanumeric characters get no bonus): block-local,
length-blocked, threshold-filtered pairs, complete when untruncated, sorted
descending by score, truncated to `max_pairs`. -/
theorem candidate_generator_postcondition (keys : List NameKey) (minSim : ℚ)
    (maxPairs : Option Nat) :
    (∀ c ∈ generateCandidatePairs keys minSim maxPairs,
        c.1 ∈ keys ∧ c.2.1 ∈ keys ∧
        c.1.1 = c.2.1.1 ∧ c.1.2.1 = c.2.1.2.1 ∧
        (c.1.2.2.length : ℤ) - c.2.1.2.2.length ≤ 20 ∧
        (c.2.1.2.2.length : ℤ) - c.1.2.2.length ≤ 20 ∧
        c.2.2 = similarityScore c.1.2.2 c.2.1.2.2 ∧
        (tokenize c.1.2.2 ≠ ∅ → tokenize c.2.1.2.2 ≠ ∅ →
          ¬ pyFalsy (normalizeAcronymKey c.1.2.2) →
          ¬ pyFalsy (normalizeAcronymKey c.2.1.2.2) →
          c.2.2 = claimSimilarityScore c.1.2.2 c.2.1.2.2) ∧
        minSim ≤ c.2.2) ∧
    (maxPairs = none → ∀ l ∈ keys, ∀ r ∈ keys,
        l.1 = r.1 → l.2.1 = r.2.1 →
        strLtCore l.2.2.data r.2.2.data = true →
        (l.2.2.length : ℤ) - r.2.2.length ≤ 20 →
        (r.2.2.length : ℤ) - l.2.2.length ≤ 20 →
        minSim ≤ similarityScore l.2.2 r.2.2 →
        (l, r, similarityScore l.2.2 r.2.2) ∈
          generateCandidatePairs keys minSim maxPairs) ∧
    (generateCandidatePairs keys minSim maxPairs).Pairwise
      (fun c c' => c'.2.2 ≤ c.2.2) ∧
    (∀ m, maxPairs = some m →
      generateCandidatePairs keys minSim maxPairs =
        (generateCandidatePairs keys minSim none).take m) := by
  refine ⟨?_, ?_, ?_, ?_⟩
  · intro c hc
    have h := mem_generateCandidatePairs keys minSim maxPairs c hc
    refine ⟨h.1, h.2.1, h.2.2.1, h.2.2.2.1, h.2.2.2.2.2.1,
      h.2.2.2.2.2.2.1, h.2.2.2.2.2.2.2.1, ?_, h.2.2.2.2.2.2.2.2⟩
    intro hta htb hka hkb
    rw [h.2.2.2.2.2.2.2.1]
    exact similarityScore_eq_claim _ _ hta htb hka hkb
  · intro hnone l hl r hr ht hb hname h1 h2 hmin
    rw [hnone]
    exact generateCandidatePairs_complete keys minSim l r hl hr ht hb hname
      h1 h2 hmin
  · unfold generateCandidatePairs
    by_cases hlen : keys.length < 2
    · simp [hlen]
    · rw [if_neg hlen]
      have hsorted := pairwise_pySorted byScoreDesc byScoreDesc_trans
        byScoreDesc_total
        (((pyGroupBy (fun k : NameKey => (k.1, k.2.1)) keys).map
          Prod.snd).flatMap (blockCandidates minSim))
      have hp : (pySorted byScoreDesc
          (((pyGroupBy (fun k : NameKey => (k.1, k.2.1)) keys).map
            Prod.snd).flatMap (blockCandidates minSim))).Pairwise
          (fun c c' : CandidatePair => c'.2.2 ≤ c.2.2) := by
        refine hsorted.imp ?_
        intro x y hxy
        simpa [byScoreDesc, decide_eq_true_eq] using hxy
      cases maxPairs with
      | none => exact hp
      | some m => exact List.Pairwise.sublist (List.take_sublist m _) hp
  · intro m hm
    rw [hm]
    unfold generateCandidatePairs
    by_cases hlen : keys.length < 2
    · simp [hlen]
    · rw [if_neg hlen, if_neg hlen]

/-- Witness for the amended C6: the completeness conjunct emits the concrete
pair ("nlp", "nlp x") with its hybrid score. -/
theorem candidate_generator_postcondition_witness :
    ((("t", "b", "nlp"), ("t", "b", "nlp x"),
        similarityScore "nlp" "nlp x") : CandidatePair) ∈
      generateCandidatePairs [("t", "b", "nlp x"), ("t", "b", "nlp")]
        (mkRat 1 2) none :=
  (candidate_generator_postcondition
      [("t", "b", "nlp x"), ("t", "b", "nlp")] (mkRat 1 2) none).2.1 rfl
    ("t", "b", "nlp") (by decide) ("t", "b", "nlp x") (by decide) rfl rfl
    (by decide) (by decide) (by decide) (by decide)

/-- C4: canonicalizing "Graph Convolutional Network (GCN)" and then "GCN" on
the same engine yields the same canonical string, the normalized long form,
because the learned acronym mapping persists on the engine instance. -/
theorem acronym_round_trip :
    (canonicalizeName {} "Graph Convolutional Network (GCN)").1 =
      "graph convolutional network" ∧
    (canonicalizeName
        (canonicalizeName {} "Graph Convolutional Network (GCN)").2
        "GCN").1 = "graph convolutional network" := by decide

/-- The two-entity input that defeats idempotence: the first pass learns the
acronym mapping `gcn ↦ graph convolutional network (gcn)` but keeps the two
entities separate (their name lengths differ by more than 20, so blocking
skips the pair), while the second pass re-canonicalizes `gcn` through the
persisted learned-acronym cache and merges. -/
def gcnEntities : List ExtractedEntity :=
  [{ entityType := "Concept", name := "gcn", confidence := mkRat 9 10 },
   { entityType := "Concept", name := "graph convolutional network (gcn)",
     confidence := mkRat 8 10 }]

/-- C3 counterexample: `resolve_entities` is not idempotent.  Feeding the
first pass's output (two unmerged entities) back into the service — whose
learned-acronym cache the first pass mutated — merges them: the second pass
reports `merged_entities = 1 ≠ 0` and `resolved_entities = 1 ≠ 2 =
raw_entities`. -/
theorem resolve_idempotence_counterexample :
    (resolveEntities (resolveEntities ({} : Engine) gcnEntities).2
        (resolveEntities ({} : Engine) gcnEntities).1.1).1.2.mergedEntities
      = 1 ∧
    (resolveEntities (resolveEntities ({} : Engine) gcnEntities).2
        (resolveEntities ({} : Engine) gcnEntities).1.1).1.2.rawEntities
      = 2 ∧
    (resolveEntities (resolveEntities ({} : Engine) gcnEntities).2
        (resolveEntities ({} : Engine) gcnEntities).1.1).1.2.resolvedEntities
      = 1 := by decide

/-- C3 amended: a resolution pass performs no merges — `merged_entities = 0`
and `resolved_entities = raw_entities` — whenever canonicalization drops no
entity, the record keys are pairwise distinct, and candidate generation at
the auto-merge threshold yields no pairs.  (A first pass's output satisfies
these hypotheses exactly when its canonical names and learned-acronym state
are stable, which the `gcnEntities` counterexample shows can fail.) -/
theorem resolve_idempotent_of_stable (eng : Engine)
    (entities : List ExtractedEntity)
    (hlen : ((buildRecords eng entities).1).length = entities.length)
    (hnd : (((buildRecords eng entities).1).map Record.key).Nodup)
    (hauto : generateCandidatePairs
        ((buildNameStats (buildRecords eng entities).1).map Prod.fst)
        eng.autoMergeThreshold none = []) :
    (resolveEntities eng entities).1.2.mergedEntities = 0 ∧
    (resolveEntities eng entities).1.2.resolvedEntities =
      (resolveEntities eng entities).1.2.rawEntities := by
  by_cases hemp : entities.isEmpty = true
  · have h0 : entities = [] := List.isEmpty_iff.1 hemp
    subst h0
    exact ⟨rfl, rfl⟩
  · obtain ⟨hraw, hres, hmer⟩ := resolveEntities_shape eng entities hemp
    have hkeys : (buildNameStats (buildRecords eng entities).1).map Prod.fst =
        ((buildRecords eng entities).1).map Record.key :=
      buildNameStats_keys (buildRecords eng entities).1 hnd
    have hndk : ((buildNameStats (buildRecords eng entities).1).map
        Prod.fst).Nodup := by
      rw [hkeys]
      exact hnd
    have hid : ∀ record ∈ (buildRecords eng entities).1,
        alistGet (buildAliasMap eng
          ((buildNameStats (buildRecords eng entities).1).map Prod.fst)
          (buildNameStats (buildRecords eng entities).1) []) record.key =
          some record.canonicalName := by
      intro record hrec
      have hmem : record.key ∈
          (buildNameStats (buildRecords eng entities).1).map Prod.fst := by
        rw [hkeys]
        exact List.mem_map_of_mem Record.key hrec
      exact buildAliasMap_identity eng _ _ hndk hauto record.key hmem
    have hlenr : (resolveWithAliasMap (buildRecords eng entities).1
        (buildAliasMap eng
          ((buildNameStats (buildRecords eng entities).1).map Prod.fst)
          (buildNameStats (buildRecords eng entities).1) [])).length =
        ((buildRecords eng entities).1).length :=
      resolveWithAliasMap_length_of_identity _ _ hid hnd
    constructor
    · rw [hmer, hlenr, hlen]
      exact Nat.sub_self _
    · rw [hres, hraw, hlenr, hlen]

/-- A length-blocked entity pair: the two names differ in length by more than
20 characters, so candidate generation skips the pair and a pass merges
nothing. -/
def stableEntities : List ExtractedEntity :=
  [{ entityType := "Concept", name := "alpha", confidence := mkRat 1 2 },
   { entityType := "Concept",
     name := "abcdefghijklmnopqrstuvwxyz0123456789",
     confidence := mkRat 1 2 }]

theorem resolve_idempotent_of_stable_witness :
    (((buildRecords ({} : Engine) stableEntities).1).length =
        stableEntities.length ∧
      ((((buildRecords ({} : Engine) stableEntities).1).map
        Record.key).Nodup) ∧
      generateCandidatePairs
        ((buildNameStats
          (buildRecords ({} : Engine) stableEntities).1).map Prod.fst)
        ({} : Engine).autoMergeThreshold none = []) ∧
    ((resolveEntities ({} : Engine) stableEntities).1.2.mergedEntities = 0 ∧
      (resolveEntities ({} : Engine) stableEntities).1.2.resolvedEntities =
        (resolveEntities ({} : Engine) stableEntities).1.2.rawEntities) :=
  ⟨⟨by decide, by decide, by decide⟩,
    resolve_idempotent_of_stable {} stableEntities (by decide) (by decide)
      (by decide)⟩

/-- C8: judge-confirmation failures are contained.  Every confirmed pair is
the projection of a sent review pair (so decisions with unknown pair ids are
ignored); the pairs of a batch whose judge call fails — either by raising
(`.error`) or because its response parses to no decisions (`.ok []`, how the
code consumes an unparsable response) — remain unconfirmed (stated for
duplicate-free projected pair lists, which `generateCandidatePairs`
produces); and with a judge whose every batch fails in either mode the
confirmation set is empty while `resolve_entities_async` still completes,
returning the synchronous resolved entities and zero confirmed pairs. -/
theorem judge_failure_containment (eng : Engine) (judge : Judge)
    (hllm : eng.llm = some judge) (reviewPairs : List CandidatePair)
    (hnd : (reviewPairs.map (fun p => (p.1, p.2.1))).Nodup)
    (bi : Nat)
    (hfail : judge bi = Except.error () ∨ judge bi = Except.ok []) :
    (∀ lr ∈ confirmCandidatePairsWithLLM eng reviewPairs,
      ∃ p ∈ reviewPairs, lr = (p.1, p.2.1)) ∧
    (∀ p ∈ (reviewPairs.drop (bi * eng.llmBatchSize)).take
        eng.llmBatchSize,
      (p.1, p.2.1) ∉ confirmCandidatePairsWithLLM eng reviewPairs) ∧
    ((∀ n, judge n = Except.error () ∨ judge n = Except.ok []) →
      confirmCandidatePairsWithLLM eng reviewPairs = [] ∧
      ∀ entities : List ExtractedEntity,
        (resolveEntitiesAsync eng entities true).1.1 =
          (resolveEntities eng entities).1.1 ∧
        (resolveEntitiesAsync eng entities true).1.2.llmPairsConfirmed
          = 0) := by
  refine ⟨?_, ?_, ?_⟩
  · intro lr hlr
    obtain ⟨bj, -, q, hq, heq⟩ :=
      confirm_mem_structure eng judge hllm reviewPairs lr hlr
    exact ⟨q, List.drop_subset _ _ (List.take_subset _ _ hq), heq⟩
  · intro p hp hmem
    obtain ⟨bj, ⟨ds, hok, hdsne⟩, q, hq, heq⟩ :=
      confirm_mem_structure eng judge hllm reviewPairs _ hmem
    have hne : bi ≠ bj := by
      rintro rfl
      rcases hfail with hf | hf
      · rw [hf] at hok
        cases hok
      · rw [hf] at hok
        exact hdsne (Except.ok.inj hok).symm
    exact slices_disjoint_proj reviewPairs eng.llmBatchSize hnd bi bj hne
      p q hp hq heq
  · intro hall
    refine ⟨confirm_all_fail eng judge hllm hall reviewPairs, ?_⟩
    intro entities
    exact async_no_confirm eng entities true
      (fun pairs => confirm_all_fail eng judge hllm hall pairs)

/-- A judge whose every batch call raises. -/
def judgeFailW : Judge := fun _ => Except.error ()

/-- An engine configured with the always-failing judge. -/
def engFailW : Engine := { llm := some judgeFailW }

/-- A single uncertain candidate pair sent for review. -/
def reviewPairsW : List CandidatePair :=
  [(("t", "b", "a"), ("t", "b", "c"), mkRat 9 10)]

theorem judge_failure_containment_witness :
    (engFailW.llm = some judgeFailW ∧
      (reviewPairsW.map (fun p => (p.1, p.2.1))).Nodup ∧
      (judgeFailW 0 = Except.error () ∨ judgeFailW 0 = Except.ok [])) ∧
    ((∀ lr ∈ confirmCandidatePairsWithLLM engFailW reviewPairsW,
        ∃ p ∈ reviewPairsW, lr = (p.1, p.2.1)) ∧
      (∀ p ∈ (reviewPairsW.drop (0 * engFailW.llmBatchSize)).take
          engFailW.llmBatchSize,
        (p.1, p.2.1) ∉ confirmCandidatePairsWithLLM engFailW
          reviewPairsW) ∧
      ((∀ n, judgeFailW n = Except.error () ∨
          judgeFailW n = Except.ok []) →
        confirmCandidatePairsWithLLM engFailW reviewPairsW = [] ∧
        ∀ entities : List ExtractedEntity,
          (resolveEntitiesAsync engFailW entities true).1.1 =
            (resolveEntities engFailW entities).1.1 ∧
          (resolveEntitiesAsync engFailW entities
            true).1.2.llmPairsConfirmed = 0)) :=
  ⟨⟨rfl, by decide, Or.inl rfl⟩,
    judge_failure_containment engFailW judgeFailW rfl reviewPairsW
      (by decide) 0 (Or.inl rfl)⟩

/-- C10: with LLM confirmation disabled (or no judge configured) the
asynchronous path is exactly the synchronous path: the whole result —
resolved entities, stats, and engine state — coincides with
`resolve_entities`, and the stats report zero reviewed pairs, zero confirmed
pairs, and no potential-false-merge samples. -/
theorem async_refines_sync (eng : Engine) (entities : List ExtractedEntity)
    (u : Bool) (h : u = false ∨ eng.llm = none) :
    resolveEntitiesAsync eng entities u = resolveEntities eng entities ∧
    (resolveEntitiesAsync eng entities u).1.2.llmPairsReviewed = 0 ∧
    (resolveEntitiesAsync eng entities u).1.2.llmPairsConfirmed = 0 ∧
    (resolveEntitiesAsync eng entities u).1.2.potentialFalseMergeSamples
      = [] := by
  have hmain : resolveEntitiesAsync eng entities u =
      resolveEntities eng entities := by
    by_cases hemp : entities.isEmpty = true
    · unfold resolveEntitiesAsync
      rw [if_pos hemp]
    · rw [resolveEntitiesAsync_eq eng entities u hemp]
      have hcond : ¬ (u = true ∧ eng.llm.isSome = true ∧
          2 ≤ ((buildNameStats
            (buildRecords eng entities).1).map Prod.fst).length) := by
        rcases h with h | h
        · rintro ⟨h1, -, -⟩
          rw [h] at h1
          exact Bool.noConfusion h1
        · rintro ⟨-, h2, -⟩
          rw [h] at h2
          exact Bool.noConfusion h2
      rw [if_neg hcond]
      exact resolveAsyncFinish_nil_eq_sync eng entities hemp
  rw [hmain]
  exact ⟨rfl, resolveEntities_llm_fields eng entities⟩

theorem async_refines_sync_witness :
    (false = false ∨ ({} : Engine).llm = none) ∧
    (resolveEntitiesAsync ({} : Engine) stableEntities false =
        resolveEntities ({} : Engine) stableEntities ∧
      (resolveEntitiesAsync ({} : Engine) stableEntities
        false).1.2.llmPairsReviewed = 0 ∧
      (resolveEntitiesAsync ({} : Engine) stableEntities
        false).1.2.llmPairsConfirmed = 0 ∧
      (resolveEntitiesAsync ({} : Engine) stableEntities
        false).1.2.potentialFalseMergeSamples = []) :=
  ⟨Or.inl rfl,
    async_refines_sync {} stableEntities false (Or.inl rfl)⟩

end ER
